import Mathlib

/-!
Verification of the vmm supervisor against its specification.

Shallow embedding of the relevant source modules:
- `src/id.rs` (base-62 identifiers),
- `src/network.rs` (bridge / TAP name derivation),
- `src/share_dir.rs` (virtiofs share tags, sockets, QEMU args),
- `src/instance.rs` (instance state file, boot sequence, QEMU arg assembly),
- `src/task_actor.rs` + `src/task_group.rs` (actor shutdown),
- `src/image_cache.rs` (download coalescing actor).

Machine integers are modelled as `Nat` (with explicit `% 2 ^ w` where
overflow matters), byte strings as `List Nat` with elements `< 256`,
Rust `String`s as `List Char`, hash maps as functions to `Option`,
and fallible operations as `Option`/`Except`.
-/

namespace Vmm

/-! ### Base-62 codec

Modelled from the spec: the `base-62` crate used by `src/id.rs` and
`src/share_dir.rs` is an external dependency whose source is not part of
this repository.  The spec describes it as the "canonical base-62 textual
encoding (16 big-endian bytes → base-62 string)" and requires
`parse(encode(b)) == b` for all 16-byte values `b`; a byte-array codec can
only satisfy this by preserving leading zero bytes (base58-check style),
which is what is modelled here. -/

def ALPHABET : List Char :=
  "0123456789ABCDEFGHIJKLMNOPQRSTUVWXYZabcdefghijklmnopqrstuvwxyz".data

def digitChar62 (d : Nat) : Char :=
  ALPHABET.getD d ' '

def charIdx62 (c : Char) : Option Nat :=
  ALPHABET.findIdx? (fun x => x == c)

/-- Little-endian base-`b` digits computed with explicit fuel so that the
definition is structural (and hence kernel-reducible). -/
def toDigitsLE (b : Nat) : Nat → Nat → List Nat
  | _, 0 => []
  | 0, _ => []
  | fuel + 1, n => n % b :: toDigitsLE b fuel (n / b)

/-- Little-endian base-`b` digits of `n` (no leading zeros, `[]` for `0`). -/
def digitsLE (b n : Nat) : List Nat :=
  toDigitsLE b n n

/-- Big-endian bytes → natural number. -/
def ofBytesBE (bs : List Nat) : Nat :=
  Nat.ofDigits 256 bs.reverse

/-- `w` big-endian bytes of `n` (mod `256 ^ w`), as in `u128::to_be_bytes`. -/
def beBytes : Nat → Nat → List Nat
  | 0, _ => []
  | w + 1, n => beBytes w (n / 256) ++ [n % 256]

def leadingZeroCount (l : List Nat) : Nat :=
  (l.takeWhile (fun x => x == 0)).length

/-- Base-62 digit string (big-endian) of a byte string, preserving leading
zero bytes as leading zero digits. -/
def b62digitsOfBytes (bs : List Nat) : List Nat :=
  List.replicate (leadingZeroCount bs) 0 ++ (digitsLE 62 (ofBytesBE bs)).reverse

/-- `base_62::encode` on a byte string. -/
def b62encode (bs : List Nat) : List Char :=
  (b62digitsOfBytes bs).map digitChar62

/-- Inverse digit-level transform of `b62digitsOfBytes`. -/
def b62decodeDigits (ds : List Nat) : List Nat :=
  List.replicate (leadingZeroCount ds) 0 ++
    (digitsLE 256 (Nat.ofDigits 62 ds.reverse)).reverse

/-- `base_62::decode` on a string; fails on characters outside the alphabet. -/
def b62decode (s : List Char) : Option (List Nat) :=
  (s.mapM charIdx62).map b62decodeDigits

/-! ### `src/id.rs` -/

/-- Rust `Id` is a `u128`; `Into<String> for Id` encodes its 16 big-endian bytes. -/
def idToString (n : Nat) : List Char :=
  b62encode (beBytes 16 n)

/-- Parsing `Id::from_str`: base-62 decode, then require exactly 16 bytes, then
`u128::from_be_bytes` (src/id.rs lines 52-63). -/
def idFromStr (s : List Char) : Option Nat :=
  match b62decode s with
  | none => none
  | some bs => if bs.length = 16 then some (ofBytesBE bs) else none

/-! ### `src/network.rs` name derivation

`get_bridge_name` / `get_tap_name` slice `&id[id.len() - 4..]`; in Rust this
panics when the string is shorter than 4 bytes, which is modelled by
returning `none` in that case. -/

def getBridgeName (networkId : Nat) : Option (List Char) :=
  let id := idToString networkId
  if 4 ≤ id.length then some ("vmmbr-".data ++ id.drop (id.length - 4)) else none

def getTapName (instanceId : Nat) : Option (List Char) :=
  let id := idToString instanceId
  if 4 ≤ id.length then some ("vmmtap-".data ++ id.drop (id.length - 4)) else none

/-! ### `src/share_dir.rs` -/

/-- Decimal rendering of a `u64`, as produced by `to_string()`. -/
def natDecimal (n : Nat) : List Char :=
  if n = 0 then ['0'] else ((digitsLE 10 n).reverse).map digitChar62

structure ShareDir where
  instance_id : Nat
  instance_memory : Nat
  tag : List Char
  path : List Char
deriving DecidableEq, Repr

/-- Constructor `ShareDir::new` (src/share_dir.rs 28-47).  Each loop iteration draws 4
random bytes, base-62 encodes them as the tag, and breaks out of the loop
iff `!sharer_dir.path.exists()`.  The host path's existence is not changed
by the loop, so the first draw decides: if the path does not exist the first
candidate is returned, and if it does exist the loop never terminates
(modelled as `none`). -/
def shareDirNew (instance_id instance_memory : Nat) (path : List Char)
    (pathExists : Bool) (draw : List Nat) : Option ShareDir :=
  if pathExists then none
  else some { instance_id := instance_id, instance_memory := instance_memory,
              tag := b62encode draw, path := path }

/-- Accessor `ShareDir::get_socket_path` (src/share_dir.rs 49-58). -/
def getSocketPath (sd : ShareDir) : List Char :=
  "/tmp/vmm-virtiofs-".data ++ idToString sd.instance_id ++ "-".data ++ sd.tag ++ ".sock".data

/-- Method `ShareDir::get_qemu_args` (src/share_dir.rs 60-87): every ShareDir emits
its chardev/device pair and also the memory-backend/numa pair. -/
def shareDirQemuArgs (sd : ShareDir) : List (List Char) :=
  let chardev := "socket,id=char-".data ++ sd.tag ++ ",path=".data ++ getSocketPath sd
  let device := "vhost-user-fs-pci,queue-size=1024,chardev=char-".data ++ sd.tag
    ++ ",tag=".data ++ sd.tag
  let mem := "memory-backend-file,id=mem,size=".data ++ natDecimal sd.instance_memory
    ++ "B,mem-path=/dev/shm,share=on".data
  let numa := "node,memdev=mem".data
  ["-chardev".data, chardev, "-device".data, device, "-object".data, mem, "-numa".data, numa]

/-! ### `src/instance.rs` -/

/-- Hex digit characters for `format!("{:02x}", _)`. -/
def hexChar (d : Nat) : Char :=
  "0123456789abcdef".data.getD d ' '

def hexByte (b : Nat) : List Char :=
  [hexChar (b / 16), hexChar (b % 16)]

/-- Method `Instance::get_mac_address` (src/instance.rs 157-161): last 3 of the 16
big-endian id bytes. -/
def getMacAddress (instId : Nat) : List Char :=
  let bytes := beBytes 16 instId
  "52:54:00:".data ++ hexByte (bytes.getD 13 0) ++ ":".data
    ++ hexByte (bytes.getD 14 0) ++ ":".data ++ hexByte (bytes.getD 15 0)

structure Instance where
  id : Nat
  boot_seq : Nat
  machine_cpus : Nat
  machine_memory : Nat
  network_id : Nat
  share_dirs : List ShareDir

/-- Method `Instance::get_qemu_args` (src/instance.rs 163-207).  The cloud-init ISO
path and root image path are produced by external collaborators and passed
in.  `none` models the panic inside `get_tap_name`. -/
def instanceQemuArgs (inst : Instance) (isoPath rootImagePath : List Char) :
    Option (List (List Char)) :=
  match getTapName inst.id with
  | none => none
  | some tap =>
    let mac := getMacAddress inst.id
    let netDevice := "virtio-net-pci,netdev=".data ++ tap ++ ",mac=".data ++ mac
    let netdev := "tap,id=".data ++ tap ++ ",ifname=".data ++ tap ++ ",script=no".data
    let isoDrive := "file=".data ++ isoPath ++ ",media=cdrom".data
    let rootDrive := "file=".data ++ rootImagePath
      ++ ",if=virtio,cache=writeback,discard=ignore,format=qcow2".data
    let qmpSocket := "unix:/tmp/vmm-qmp-".data ++ idToString inst.id
      ++ ".sock,server,nowait".data
    let base := ["-machine".data, "type=pc,accel=kvm".data,
      "-boot".data, "d".data,
      "-smp".data, natDecimal inst.machine_cpus,
      "-m".data, natDecimal inst.machine_memory ++ "B".data,
      "-device".data, netDevice,
      "-netdev".data, netdev,
      "-drive".data, isoDrive,
      "-drive".data, rootDrive,
      "-nographic".data,
      "-qmp".data, qmpSocket]
    some (base ++ (inst.share_dirs.map shareDirQemuArgs).flatten)

/-- The persisted `InstanceState` record of `state.json`. -/
structure InstanceState where
  id : Nat
  boot_seq : Nat
  machine_id : Nat
  network_id : Nat
deriving DecidableEq, Repr

/-- Constructor `Instance::new` (src/instance.rs 38-79): fails if the state file exists,
otherwise writes `boot_seq = 0` and returns the new store together with the
created instance's `boot_seq`. -/
def instanceNew (fs : Nat → Option InstanceState) (id machine_id network_id : Nat) :
    Option ((Nat → Option InstanceState) × Nat) :=
  match fs id with
  | some _ => none
  | none =>
    let st : InstanceState :=
      { id := id, boot_seq := 0, machine_id := machine_id, network_id := network_id }
    some (fun i => if i = id then some st else fs i, 0)

/-- Method `Instance::read` (src/instance.rs 81-132): read `state.json`, increment
`boot_seq` (a `u64`, hence mod `2 ^ 64`), rewrite the file, then resolve the
machine and network.  The rewrite happens before those reads, so the new
store is returned even when they fail; the second component is the returned
instance's `boot_seq` on success. -/
def instanceRead (fs : Nat → Option InstanceState) (machineOk networkOk : Nat → Bool)
    (id : Nat) : (Nat → Option InstanceState) × Option Nat :=
  match fs id with
  | none => (fs, none)
  | some st =>
    let st' : InstanceState := { st with boot_seq := (st.boot_seq + 1) % 2 ^ 64 }
    let fs' := fun i => if i = id then some st' else fs i
    if machineOk st.machine_id && networkOk st.network_id then
      (fs', some st'.boot_seq)
    else
      (fs', none)

/-! ### `src/task_actor.rs` shutdown timing

Children are modelled by the time at which `tasks.wait()` observes their
completion after the group has been cancelled; `none` means the child never
finishes (it never observes cancellation). -/

def SHUTDOWN_TIMEOUT : Nat := 5

structure ActorModel where
  shutdown : Bool
  receiverClosed : Bool
  shutdownTimerDeadline : Option Nat
  groupCancelled : Bool
deriving DecidableEq, Repr

def initialActor : ActorModel :=
  { shutdown := false, receiverClosed := false,
    shutdownTimerDeadline := none, groupCancelled := false }

/-- Time at which `TaskGroup::wait` (src/task_group.rs 54-66) returns when
started at `now`: it awaits every recorded handle, so it never returns if
some child never completes. -/
def groupWaitTime (now : Nat) (children : List (Option Nat)) : Option Nat :=
  if children.all (fun c => c.isSome) then
    some (children.foldl (fun acc c => max acc (c.getD 0)) now)
  else none

/-- Method `TaskActor::shutdown` (src/task_actor.rs 102-114): set the flag, close
the receiver, insert the `ShutdownTimeout` timer at `now + 5`, cancel the
child group, then `tasks.wait().await`.  Control does not come back (and the
timer queue is not polled) until `wait()` returns; the second component is
the time at which `shutdown` returns, `none` if it never does. -/
def actorShutdown (now : Nat) (children : List (Option Nat)) (a : ActorModel) :
    ActorModel × Option Nat :=
  if a.shutdown then (a, some now)
  else
    ({ shutdown := true, receiverClosed := true,
       shutdownTimerDeadline := some (now + SHUTDOWN_TIMEOUT),
       groupCancelled := true }, groupWaitTime now children)

/-- The cancelled arm of `TaskActor::update` (src/task_actor.rs 82-86):
`self.shutdown().await` runs to completion before `update` returns
`Stopped(Cancelled)`; the select cannot observe the `ShutdownTimeout` timer
while blocked inside `shutdown()`.  Returns the actor state and the time at
which `update` returns. -/
def updateOnCancel (now : Nat) (children : List (Option Nat)) (a : ActorModel) :
    ActorModel × Option Nat :=
  actorShutdown now children a

/-! ### `src/image_cache.rs` -/

abbrev Url := Nat

inductive GetImageHashResult where
  | ImageCached : List Char → GetImageHashResult
  | DownloadNoContentLength : GetImageHashResult
  | DownloadFailed : Nat → GetImageHashResult
  | DownloadFailedToReadChunk : GetImageHashResult
  | DownloadCancelled : GetImageHashResult
  | UnknownError : GetImageHashResult
deriving DecidableEq, Repr

structure Subscriber where
  expected_hash : Option (List Char)
  response : Option Nat
deriving DecidableEq, Repr

structure Download where
  id : Nat
  subscribers : List Subscriber
  timer_key : Nat
  hash : Option (List Char)
deriving DecidableEq, Repr

inductive CacheTimer where
  | DownloadTimeout : Nat → Url → CacheTimer
  | UrlHashExpired : Url → CacheTimer
deriving DecidableEq, Repr

structure ImageCacheState where
  downloads : Url → Option Download
  next_download_id : Nat
  timers : Nat → Option CacheTimer
  next_timer_key : Nat
  workers : List (Nat × Url)
  next_task_id : Nat

def initialCacheState : ImageCacheState :=
  { downloads := fun _ => none, next_download_id := 0,
    timers := fun _ => none, next_timer_key := 0,
    workers := [], next_task_id := 0 }

/-- The fast path of `ImageCacheClient::get_image_hash` (src/image_cache.rs
88-93): with an expected hash whose cache file exists, return
`ImageCached(expected_hash)` without contacting the actor (`none` means the
request is forwarded to the actor and the client returns whatever value the
actor later sends on the oneshot channel, unchanged, lines 95-105). -/
def clientFastPath (cacheFiles : List Char → Option (List Nat))
    (expected : Option (List Char)) : Option GetImageHashResult :=
  match expected with
  | some e => if (cacheFiles e).isSome then some (.ImageCached e) else none
  | none => none

structure HttpResponse where
  status : Nat
  contentLength : Option Nat
  chunks : List (Option (List Nat))
deriving DecidableEq, Repr

def statusIsSuccess (s : Nat) : Bool :=
  decide (200 ≤ s) && decide (s < 300)

def readChunks : List (Option (List Nat)) → Option (List Nat)
  | [] => some []
  | none :: _ => none
  | some c :: rest => (readChunks rest).map (fun r => c ++ r)

/-- The worker body `get_image_hash` (src/image_cache.rs 311-392), with the
image-cache directory as an explicit store keyed by hex hash.  NOTE: when
`Content-Length` is absent the source (lines 320-322) returns
`DownloadFailed(response.status())`; the `DownloadNoContentLength` variant
is never constructed anywhere.  On success the hashed temp file is renamed
into `{cache}/images/<hash>` (the store update). -/
def workerGetImageHash (sha : List Nat → List Char)
    (fs : List Char → Option (List Nat)) (resp : HttpResponse) :
    GetImageHashResult × (List Char → Option (List Nat)) :=
  match resp.contentLength with
  | none => (.DownloadFailed resp.status, fs)
  | some _ =>
    if statusIsSuccess resp.status then
      match readChunks resp.chunks with
      | none => (.DownloadFailedToReadChunk, fs)
      | some body =>
        (.ImageCached (sha body), fun k => if k = sha body then some body else fs k)
    else (.DownloadFailed resp.status, fs)

/-- The "start new download" tail of `handle_get_image_hash`
(src/image_cache.rs 244-295): allocate a download id, spawn a worker task,
insert a 60-second `DownloadTimeout` timer, and register the `Download`
with the request as sole subscriber. -/
def startNewDownload (s : ImageCacheState) (url : Url)
    (expected : Option (List Char)) (resp : Nat) :
    ImageCacheState × List (Nat × GetImageHashResult) :=
  let download_id := s.next_download_id
  let task_id := s.next_task_id
  let timer_key := s.next_timer_key
  let d : Download :=
    { id := download_id,
      subscribers := [{ expected_hash := expected, response := some resp }],
      timer_key := timer_key, hash := none }
  ({ downloads := fun u => if u = url then some d else s.downloads u,
     next_download_id := download_id + 1,
     timers := fun k => if k = timer_key then some (.DownloadTimeout task_id url)
       else s.timers k,
     next_timer_key := timer_key + 1,
     workers := (task_id, url) :: s.workers,
     next_task_id := task_id + 1 }, [])

/-- Handler `ImageCache::handle_get_image_hash` (src/image_cache.rs 207-296). -/
def handleGetImageHash (s : ImageCacheState) (url : Url)
    (expected : Option (List Char)) (resp : Nat) :
    ImageCacheState × List (Nat × GetImageHashResult) :=
  match s.downloads url with
  | some d =>
    match d.hash with
    | some h =>
      match expected with
      | some e =>
        if e = h then (s, [(resp, .ImageCached h)])
        else
          startNewDownload
            { s with downloads := fun u => if u = url then none else s.downloads u }
            url expected resp
      | none => startNewDownload s url expected resp
    | none =>
      ({ s with downloads := fun u => if u = url then
            some { d with subscribers :=
              d.subscribers ++ [{ expected_hash := expected, response := some resp }] }
          else s.downloads u }, [])
  | none => startNewDownload s url expected resp

/-- The `GetImageHashResult` branch of `ImageCache::handle_message`
(src/image_cache.rs 188-202): remove the entry's timer, drain subscribers
delivering the (unfiltered) result to each, and record the hash if the
result was `ImageCached`. -/
def handleResult (s : ImageCacheState) (url : Url) (r : GetImageHashResult) :
    ImageCacheState × List (Nat × GetImageHashResult) :=
  match s.downloads url with
  | none => (s, [])
  | some d =>
    let delivered := d.subscribers.filterMap
      (fun sub => sub.response.map (fun rid => (rid, r)))
    let newHash := match r with
      | .ImageCached h => some h
      | _ => d.hash
    ({ s with
        timers := fun k => if k = d.timer_key then none else s.timers k,
        downloads := fun u => if u = url then
            some { d with subscribers := [], hash := newHash }
          else s.downloads u },
      delivered)

/-- Remove the first worker recorded for `url` (the worker task finishing). -/
def removeWorkerForUrl : List (Nat × Url) → Url → List (Nat × Url)
  | [], _ => []
  | w :: rest, url => if w.2 = url then rest else w :: removeWorkerForUrl rest url

/-- Handler `ImageCache::handle_timer` (src/image_cache.rs 298-308); `abort_task`
removes the task with the given id from the group. -/
def handleTimer (s : ImageCacheState) (t : CacheTimer) : ImageCacheState :=
  match t with
  | .DownloadTimeout task_id url =>
    { s with workers := s.workers.filter (fun w => ! (w.1 == task_id)),
             downloads := fun u => if u = url then none else s.downloads u }
  | .UrlHashExpired url =>
    { s with downloads := fun u => if u = url then none else s.downloads u }

/-- Events of the actor loop.  Worker completion is modelled synchronously:
the worker task finishes and its self-message `GetImageHashResult(url, r)`
is processed in the same step (the message is the task's last action and
the actor serializes all mutations). -/
inductive CacheEvent where
  | request : Url → Option (List Char) → Nat → CacheEvent
  | workerDone : Url → GetImageHashResult → CacheEvent
  | timerFire : Nat → CacheEvent

def enabledEvent (s : ImageCacheState) : CacheEvent → Bool
  | .request _ _ _ => true
  | .workerDone url _ => s.workers.any (fun w => w.2 == url)
  | .timerFire key => (s.timers key).isSome

def stepEvent (s : ImageCacheState) :
    CacheEvent → ImageCacheState × List (Nat × GetImageHashResult)
  | .request url expected resp => handleGetImageHash s url expected resp
  | .workerDone url r =>
    handleResult { s with workers := removeWorkerForUrl s.workers url } url r
  | .timerFire key =>
    match s.timers key with
    | none => (s, [])
    | some t =>
      (handleTimer { s with timers := fun k => if k = key then none else s.timers k } t, [])

inductive CacheReachable : ImageCacheState → Prop where
  | init : CacheReachable initialCacheState
  | step : ∀ s e, CacheReachable s → enabledEvent s e = true →
      CacheReachable (stepEvent s e).1

/-- Run a list of events, accumulating delivered responses. -/
def runEvents (s : ImageCacheState) : List CacheEvent →
    ImageCacheState × List (Nat × GetImageHashResult)
  | [] => (s, [])
  | e :: es =>
    let out := (stepEvent s e).2
    let rest := runEvents (stepEvent s e).1 es
    (rest.1, out ++ rest.2)

def eventsEnabled (s : ImageCacheState) : List CacheEvent → Bool
  | [] => true
  | e :: es => enabledEvent s e && eventsEnabled (stepEvent s e).1 es

/-- The state after `handle_get_image_hash` appends a subscriber to the
in-flight entry `d` for `url` (the record produced by the in-flight branch,
named for reuse in statements). -/
def appendSubscriberState (s : ImageCacheState) (url : Url) (d : Download)
    (expected : Option (List Char)) (resp : Nat) : ImageCacheState :=
  { s with downloads := fun u =>
      if u = url then
        (some { d with subscribers :=
          d.subscribers ++ [{ expected_hash := expected, response := some resp }] })
      else s.downloads u }

/-- An entry is defunct when it is still registered with no finalized hash
but no worker task for its URL exists any more. -/
def Defunct (s : ImageCacheState) (url : Url) : Prop :=
  (∃ d, s.downloads url = some d ∧ d.hash = none) ∧
    ∀ tid, (tid, url) ∉ s.workers

/-- Predicate: `rid` is the oneshot channel of some subscriber registered on `url`. -/
def ridRegistered (s : ImageCacheState) (url : Url) (rid : Nat) : Prop :=
  ∃ d, s.downloads url = some d ∧ ∃ sub ∈ d.subscribers, sub.response = some rid

/-- Predicate: `rid` is not registered on any entry other than `url`. -/
def ridFreeOutside (s : ImageCacheState) (url : Url) (rid : Nat) : Prop :=
  ∀ url' d, url' ≠ url → s.downloads url' = some d →
    ∀ sub ∈ d.subscribers, sub.response ≠ some rid

def eventAvoidsRid (rid : Nat) : CacheEvent → Prop
  | .request _ _ resp => resp ≠ rid
  | _ => True

/-- An on-disk image store is hash-consistent when every stored file's
digest is its key (spec: an on-disk image at images/h satisfies sha256 = h). -/
def CacheFilesOk (sha : List Nat → List Char)
    (fs : List Char → Option (List Nat)) : Prop :=
  ∀ h body, fs h = some body → sha body = h

/-! ### Image-cache invariant -/

/-- The inductive invariant of the image-cache actor. -/
structure CacheInv (s : ImageCacheState) : Prop where
  worker_count : ∀ url, (s.workers.filter (fun w => w.2 == url)).length ≤ 1
  worker_entry : ∀ tid url, (tid, url) ∈ s.workers →
      ∃ d, s.downloads url = some d ∧ d.hash = none
  timer_shape : ∀ key t, s.timers key = some t →
      ∃ tid url d, t = CacheTimer.DownloadTimeout tid url ∧ (tid, url) ∈ s.workers ∧
        s.downloads url = some d ∧ d.timer_key = key ∧ d.hash = none
  tid_fresh : ∀ tid url, (tid, url) ∈ s.workers → tid < s.next_task_id
  key_fresh : ∀ key, (s.timers key).isSome → key < s.next_timer_key
  entry_key_fresh : ∀ url d, s.downloads url = some d → d.timer_key < s.next_timer_key
  entry_key_inj : ∀ u1 d1 u2 d2, s.downloads u1 = some d1 → s.downloads u2 = some d2 →
      d1.timer_key = d2.timer_key → u1 = u2
  tid_nodup : (s.workers.map Prod.fst).Nodup

/-! ### Digit and codec lemmas -/

theorem toDigitsLE_eq_digits (b : Nat) (hb : 2 ≤ b) :
    ∀ fuel n, n ≤ fuel → toDigitsLE b fuel n = Nat.digits b n := by
  intro fuel
  induction fuel with
  | zero =>
    intro n hn
    interval_cases n
    simp [toDigitsLE]
  | succ fuel ih =>
    intro n hn
    cases n with
    | zero => simp [toDigitsLE]
    | succ k =>
      have hdiv : (k + 1) / b ≤ fuel := by
        have h1 : (k + 1) / b < k + 1 := Nat.div_lt_self (Nat.succ_pos k) hb
        omega
      rw [show toDigitsLE b (fuel + 1) (k + 1)
            = (k + 1) % b :: toDigitsLE b fuel ((k + 1) / b) from rfl]
      rw [ih _ hdiv]
      rw [← Nat.digits_def' (by omega : 1 < b) (Nat.succ_pos k)]

theorem digitsLE_eq (b n : Nat) (hb : 2 ≤ b) : digitsLE b n = Nat.digits b n :=
  toDigitsLE_eq_digits b hb n n (Nat.le_refl n)

theorem ofDigits_replicate_zero (b : Nat) : ∀ k, Nat.ofDigits b (List.replicate k 0) = 0 := by
  intro k
  induction k with
  | zero => simp [Nat.ofDigits]
  | succ k ih => simp [List.replicate, Nat.ofDigits, ih]

theorem beBytes_length (w : Nat) : ∀ n, (beBytes w n).length = w := by
  induction w with
  | zero => intro n; rfl
  | succ w ih => intro n; simp [beBytes, ih]

theorem beBytes_lt (w : Nat) : ∀ n, ∀ x ∈ beBytes w n, x < 256 := by
  induction w with
  | zero => intro n x hx; simp [beBytes] at hx
  | succ w ih =>
    intro n x hx
    simp only [beBytes, List.mem_append, List.mem_singleton] at hx
    rcases hx with hx | hx
    · exact ih _ x hx
    · subst hx; exact Nat.mod_lt _ (by omega)

theorem ofBytesBE_beBytes (w : Nat) : ∀ n, ofBytesBE (beBytes w n) = n % 256 ^ w := by
  induction w with
  | zero => intro n; simp [beBytes, ofBytesBE, Nat.ofDigits, Nat.mod_one]
  | succ w ih =>
    intro n
    have h : ofBytesBE (beBytes (w + 1) n)
        = n % 256 + 256 * ofBytesBE (beBytes w (n / 256)) := by
      simp [ofBytesBE, beBytes, Nat.ofDigits_cons]
    rw [h, ih (n / 256), pow_succ, mul_comm (256 ^ w) 256, Nat.mod_mul]

theorem beBytes_ofBytesBE : ∀ (w : Nat) (bs : List Nat), bs.length = w →
    (∀ x ∈ bs, x < 256) → beBytes w (ofBytesBE bs) = bs := by
  intro w
  induction w with
  | zero =>
    intro bs hlen _
    rw [List.length_eq_zero] at hlen
    subst hlen; rfl
  | succ w ih =>
    intro bs hlen hlt
    have hne : bs ≠ [] := by intro h; subst h; simp at hlen
    obtain ⟨bs0, b, rfl⟩ : ∃ bs0 b, bs = bs0 ++ [b] := by
      refine ⟨bs.dropLast, bs.getLast hne, ?_⟩
      exact (List.dropLast_append_getLast hne).symm
    have hb : b < 256 := hlt b (by simp)
    have hlen0 : bs0.length = w := by simpa using hlen
    have hval : ofBytesBE (bs0 ++ [b]) = b + 256 * ofBytesBE bs0 := by
      simp [ofBytesBE, Nat.ofDigits_cons]
    have hmod : (b + 256 * ofBytesBE bs0) % 256 = b := by
      rw [Nat.add_mul_mod_self_left, Nat.mod_eq_of_lt hb]
    have hdiv : (b + 256 * ofBytesBE bs0) / 256 = ofBytesBE bs0 := by
      rw [Nat.add_mul_div_left _ _ (by omega : 0 < 256), Nat.div_eq_of_lt hb]
      omega
    rw [hval]
    show beBytes w ((b + 256 * ofBytesBE bs0) / 256) ++ [(b + 256 * ofBytesBE bs0) % 256]
        = bs0 ++ [b]
    rw [hmod, hdiv, ih bs0 hlen0 (fun x hx => hlt x (by simp [hx]))]

/-! ### Leading-zero decomposition -/

theorem takeWhile_replicate_zero_append (X : List Nat) :
    ∀ k, (List.replicate k 0 ++ X).takeWhile (fun x => x == 0)
      = List.replicate k 0 ++ X.takeWhile (fun x => x == 0) := by
  intro k
  induction k with
  | zero => simp
  | succ k ih => simp [List.replicate, List.takeWhile, ih]

theorem zeros_decomp (bs : List Nat) :
    bs = List.replicate (leadingZeroCount bs) 0 ++ bs.dropWhile (fun x => x == 0) := by
  have h1 : bs.takeWhile (fun x => x == 0) = List.replicate (leadingZeroCount bs) 0 := by
    apply List.eq_replicate_of_mem
    intro b hb
    have := List.mem_takeWhile_imp hb
    simpa using this
  conv_lhs => rw [← List.takeWhile_append_dropWhile (p := fun x => x == 0) (l := bs)]
  rw [h1]

theorem dropWhile_head_ne_zero (bs : List Nat) (b : Nat) (rest : List Nat)
    (h : bs.dropWhile (fun x => x == 0) = b :: rest) : b ≠ 0 := by
  have := List.head_dropWhile_not (fun x => x == 0) bs
  rw [h] at this
  simpa using this (by simp)

theorem ofBytesBE_replicate_zero_append (k : Nat) (tl : List Nat) :
    ofBytesBE (List.replicate k 0 ++ tl) = ofBytesBE tl := by
  simp [ofBytesBE, Nat.ofDigits_append, ofDigits_replicate_zero]

theorem ofBytesBE_cons_pos (b : Nat) (rest : List Nat) (hb : b ≠ 0) :
    ofBytesBE (b :: rest) ≠ 0 := by
  simp only [ofBytesBE, List.reverse_cons, Nat.ofDigits_append]
  have h1 : Nat.ofDigits 256 [b] = b := by simp [Nat.ofDigits]
  rw [h1]
  have h2 : 0 < 256 ^ rest.reverse.length := Nat.pos_pow_of_pos _ (by omega)
  intro hcontra
  have : (256 : Nat) ^ rest.reverse.length * b = 0 := by omega
  rcases Nat.mul_eq_zero.mp this with h | h
  · omega
  · exact hb h

theorem digits256_reconstruct (b : Nat) (rest : List Nat) (hb : b ≠ 0)
    (hlt : ∀ x ∈ b :: rest, x < 256) :
    Nat.digits 256 (ofBytesBE (b :: rest)) = (b :: rest).reverse := by
  unfold ofBytesBE
  apply Nat.digits_ofDigits 256 (by omega) ((b :: rest).reverse)
  · intro l hl
    exact hlt l (by simpa [or_comm] using hl)
  · intro h
    have : ((b :: rest).reverse).getLast h = b := by
      rw [List.getLast_reverse]
      rfl
    rw [this]
    exact hb


theorem takeWhile_cons_ne_zero (x0 : Nat) (X : List Nat) (hx : x0 ≠ 0) :
    (x0 :: X).takeWhile (fun x => x == 0) = [] := by
  have h : (x0 == 0) = false := by simpa using hx
  simp [List.takeWhile, h]

theorem leadingZeroCount_replicate (k : Nat) :
    leadingZeroCount (List.replicate k 0) = k := by
  unfold leadingZeroCount
  have := takeWhile_replicate_zero_append [] k
  simp at this
  simp [this]

theorem leadingZeroCount_replicate_append (k : Nat) (X : List Nat)
    (hX : X.takeWhile (fun x => x == 0) = []) :
    leadingZeroCount (List.replicate k 0 ++ X) = k := by
  unfold leadingZeroCount
  rw [takeWhile_replicate_zero_append X k, hX]
  simp

/-- Digit-level round-trip: decoding the base-62 digit string of a byte
string recovers the byte string. -/
theorem b62decodeDigits_encode (bs : List Nat) (hlt : ∀ x ∈ bs, x < 256) :
    b62decodeDigits (b62digitsOfBytes bs) = bs := by
  have hbs := zeros_decomp bs
  set k := leadingZeroCount bs with hk
  set tl := bs.dropWhile (fun x => x == 0) with htl
  have hv : ofBytesBE bs = ofBytesBE tl := by
    conv_lhs => rw [hbs]
    exact ofBytesBE_replicate_zero_append k tl
  cases htl' : tl with
  | nil =>
    have hv0 : ofBytesBE bs = 0 := by
      rw [hv, htl']; simp [ofBytesBE, Nat.ofDigits]
    have henc : b62digitsOfBytes bs = List.replicate k 0 := by
      unfold b62digitsOfBytes
      rw [hv0, ← hk]
      rw [digitsLE_eq 62 0 (by omega)]
      simp
    rw [henc]
    unfold b62decodeDigits
    rw [leadingZeroCount_replicate k]
    rw [List.reverse_replicate]
    rw [ofDigits_replicate_zero 62 k]
    rw [digitsLE_eq 256 0 (by omega)]
    simp
    conv_rhs => rw [hbs, htl']
    simp
  | cons b rest =>
    have hb : b ≠ 0 := dropWhile_head_ne_zero bs b rest (by rw [← htl, htl'])
    have hlt_tl : ∀ x ∈ tl, x < 256 := by
      intro x hx
      apply hlt
      rw [hbs]
      exact List.mem_append_right _ hx
    have hvne : ofBytesBE bs ≠ 0 := by
      rw [hv, htl']
      exact ofBytesBE_cons_pos b rest hb
    have hdig256 : Nat.digits 256 (ofBytesBE bs) = tl.reverse := by
      rw [hv, htl']
      exact digits256_reconstruct b rest hb (by rw [← htl']; exact hlt_tl)
    have hdig62ne : Nat.digits 62 (ofBytesBE bs) ≠ [] :=
      Nat.digits_ne_nil_iff_ne_zero.mpr hvne
    obtain ⟨x0, X', hX⟩ : ∃ x0 X', (Nat.digits 62 (ofBytesBE bs)).reverse = x0 :: X' := by
      cases hcase : (Nat.digits 62 (ofBytesBE bs)).reverse with
      | nil =>
        exfalso
        apply hdig62ne
        simpa using congrArg List.reverse hcase
      | cons a l => exact ⟨a, l, rfl⟩
    have hx0 : x0 ≠ 0 := by
      have hlast := Nat.getLast_digit_ne_zero 62 hvne
      have h2 : (Nat.digits 62 (ofBytesBE bs)).getLast? = some x0 := by
        rw [← List.head?_reverse, hX]
        rfl
      rw [List.getLast?_eq_getLast _ hdig62ne] at h2
      exact (Option.some.inj h2) ▸ hlast
    have henc : b62digitsOfBytes bs = List.replicate k 0 ++ x0 :: X' := by
      unfold b62digitsOfBytes
      rw [← hk, digitsLE_eq 62 _ (by omega), hX]
    rw [henc]
    unfold b62decodeDigits
    rw [leadingZeroCount_replicate_append k _ (takeWhile_cons_ne_zero x0 X' hx0)]
    have hrev : (List.replicate k 0 ++ x0 :: X').reverse
        = Nat.digits 62 (ofBytesBE bs) ++ List.replicate k 0 := by
      rw [List.reverse_append, List.reverse_replicate, ← hX]
      simp
    rw [hrev, Nat.ofDigits_append, Nat.ofDigits_digits, ofDigits_replicate_zero, mul_zero,
      add_zero, digitsLE_eq 256 _ (by omega), hdig256, List.reverse_reverse]
    conv_rhs => rw [hbs]

theorem b62digits_lt (bs : List Nat) : ∀ d ∈ b62digitsOfBytes bs, d < 62 := by
  intro d hd
  unfold b62digitsOfBytes at hd
  rw [List.mem_append] at hd
  rcases hd with hd | hd
  · have := List.eq_of_mem_replicate hd
    omega
  · rw [List.mem_reverse, digitsLE_eq 62 _ (by omega)] at hd
    exact Nat.digits_lt_base (by omega) hd

theorem charIdx62_digitChar62 : ∀ d, d < 62 → charIdx62 (digitChar62 d) = some d := by
  decide

theorem mapM_charIdx_of_map_digitChar :
    ∀ ds : List Nat, (∀ d ∈ ds, d < 62) →
      (ds.map digitChar62).mapM charIdx62 = some ds := by
  intro ds
  induction ds with
  | nil => intro _; rfl
  | cons d ds ih =>
    intro h
    have hd : d < 62 := h d (List.mem_cons_self d ds)
    have hds := ih (fun x hx => h x (List.mem_cons_of_mem d hx))
    simp only [List.map_cons, List.mapM_cons, charIdx62_digitChar62 d hd, hds]
    rfl

/-- String-level round-trip through `base_62::decode`. -/
theorem b62decode_encode (bs : List Nat) (hlt : ∀ x ∈ bs, x < 256) :
    b62decode (b62encode bs) = some bs := by
  unfold b62decode b62encode
  rw [mapM_charIdx_of_map_digitChar _ (b62digits_lt bs)]
  simp [b62decodeDigits_encode bs hlt]


/-! ### Digit-length bounds -/

theorem digits_len_mono (b : Nat) : Monotone (fun n => (Nat.digits b n).length) :=
  monotone_nat_of_le_succ (Nat.digits_len_le_digits_len_succ b)

theorem digits_len_anti_base (b1 b2 : Nat) (h2 : 2 ≤ b2) (hb : b2 ≤ b1) :
    ∀ n, (Nat.digits b1 n).length ≤ (Nat.digits b2 n).length := by
  intro n
  induction n using Nat.strong_induction_on with
  | _ n ih =>
    cases n with
    | zero => simp
    | succ m =>
      rw [Nat.digits_def' (by omega : 1 < b1) (Nat.succ_pos m),
        Nat.digits_def' (by omega : 1 < b2) (Nat.succ_pos m)]
      simp only [List.length_cons, Nat.succ_le_succ_iff]
      calc (Nat.digits b1 ((m + 1) / b1)).length
          ≤ (Nat.digits b2 ((m + 1) / b1)).length :=
            ih _ (Nat.div_lt_self (Nat.succ_pos m) (by omega))
        _ ≤ (Nat.digits b2 ((m + 1) / b2)).length :=
            digits_len_mono b2 (Nat.div_le_div_left hb (by omega))

/-- The base-62 digit string of a byte string is at least as long as the byte
string itself. -/
theorem b62digitsOfBytes_length_ge (bs : List Nat) (hlt : ∀ x ∈ bs, x < 256) :
    bs.length ≤ (b62digitsOfBytes bs).length := by
  have hbs := zeros_decomp bs
  set k := leadingZeroCount bs with hk
  set tl := bs.dropWhile (fun x => x == 0) with htl
  have hv : ofBytesBE bs = ofBytesBE tl := by
    conv_lhs => rw [hbs]
    exact ofBytesBE_replicate_zero_append k tl
  have hlen : (b62digitsOfBytes bs).length
      = k + (Nat.digits 62 (ofBytesBE bs)).length := by
    unfold b62digitsOfBytes
    rw [digitsLE_eq 62 _ (by omega)]
    simp [← hk]
  have hbslen : bs.length = k + tl.length := by
    conv_lhs => rw [hbs]
    simp
  rw [hlen, hbslen]
  cases htl' : tl with
  | nil =>
    simp [htl'] at hbslen ⊢
  | cons b rest =>
    have hb : b ≠ 0 := dropWhile_head_ne_zero bs b rest (by rw [← htl, htl'])
    have hlt_tl : ∀ x ∈ tl, x < 256 := by
      intro x hx
      apply hlt
      rw [hbs]
      exact List.mem_append_right _ hx
    have hdig256 : Nat.digits 256 (ofBytesBE bs) = tl.reverse := by
      rw [hv, htl']
      exact digits256_reconstruct b rest hb (by rw [← htl']; exact hlt_tl)
    have h256len : (Nat.digits 256 (ofBytesBE bs)).length = tl.length := by
      rw [hdig256, List.length_reverse]
    have hcmp := digits_len_anti_base 256 62 (by omega) (by omega) (ofBytesBE bs)
    rw [htl'] at h256len
    omega

theorem idToString_length_ge (n : Nat) : 16 ≤ (idToString n).length := by
  unfold idToString b62encode
  rw [List.length_map]
  have h := b62digitsOfBytes_length_ge (beBytes 16 n) (beBytes_lt 16 n)
  rw [beBytes_length] at h
  exact h

theorem initial_cacheInv : CacheInv initialCacheState := by
  constructor <;> intros <;> simp_all [initialCacheState]

/-! Helper list lemmas for worker bookkeeping. -/

theorem mem_two_length_ge {α : Type} [DecidableEq α] {l : List α} {a b : α}
    (ha : a ∈ l) (hb : b ∈ l) (hne : a ≠ b) : 2 ≤ l.length := by
  obtain ⟨s, t, rfl⟩ := List.append_of_mem ha
  have hb' : b ∈ s ++ t := by
    rcases List.mem_append.mp hb with h | h
    · exact List.mem_append_left _ h
    · rcases List.mem_cons.mp h with h | h
      · exact absurd h.symm hne
      · exact List.mem_append_right _ h
  have : 1 ≤ (s ++ t).length := List.length_pos.mpr (List.ne_nil_of_mem hb')
  simp only [List.length_append, List.length_cons] at *
  omega

theorem count_le_one_unique {ws : List (Nat × Url)} {url : Url}
    (h : (ws.filter (fun w => w.2 == url)).length ≤ 1)
    {a b : Nat × Url} (ha : a ∈ ws) (hb : b ∈ ws)
    (ha2 : a.2 = url) (hb2 : b.2 = url) : a = b := by
  by_contra hne
  have ha' : a ∈ ws.filter (fun w => w.2 == url) :=
    List.mem_filter.mpr ⟨ha, by simp [ha2]⟩
  have hb' : b ∈ ws.filter (fun w => w.2 == url) :=
    List.mem_filter.mpr ⟨hb, by simp [hb2]⟩
  have := mem_two_length_ge ha' hb' hne
  omega

theorem removeWorkerForUrl_sublist (ws : List (Nat × Url)) (url : Url) :
    (removeWorkerForUrl ws url).Sublist ws := by
  induction ws with
  | nil => simp [removeWorkerForUrl]
  | cons w rest ih =>
    by_cases h : w.2 = url
    · simp [removeWorkerForUrl, h]
    · simpa [removeWorkerForUrl, h] using ih.cons₂ w

theorem removeWorkerForUrl_filter_nil (ws : List (Nat × Url)) (url : Url)
    (h : (ws.filter (fun w => w.2 == url)).length ≤ 1) :
    (removeWorkerForUrl ws url).filter (fun w => w.2 == url) = [] := by
  induction ws with
  | nil => rfl
  | cons w rest ih =>
    by_cases hw : w.2 = url
    · have hcons : (w :: rest).filter (fun w => w.2 == url)
          = w :: rest.filter (fun w => w.2 == url) := by
        simp [List.filter, hw]
      rw [hcons] at h
      simp only [List.length_cons] at h
      have : (rest.filter (fun w => w.2 == url)).length = 0 := by omega
      have hnil := List.length_eq_zero.mp this
      simp [removeWorkerForUrl, hw, hnil]
    · have hne : (w.2 == url) = false := by simpa using hw
      have hcons : (w :: rest).filter (fun w => w.2 == url)
          = rest.filter (fun w => w.2 == url) := by
        simp [List.filter, hne]
      rw [hcons] at h
      simp [removeWorkerForUrl, hw, List.filter, hne, ih h]

theorem removeWorkerForUrl_mem_of_ne (ws : List (Nat × Url)) (url : Url)
    (x : Nat × Url) (hx : x ∈ ws) (hne : x.2 ≠ url) :
    x ∈ removeWorkerForUrl ws url := by
  induction ws with
  | nil => simp at hx
  | cons w rest ih =>
    rcases List.mem_cons.mp hx with h | h
    · subst h
      simp [removeWorkerForUrl, hne]
    · by_cases hw : w.2 = url
      · simpa [removeWorkerForUrl, hw] using h
      · simp [removeWorkerForUrl, hw]
        right
        exact ih h

theorem nodup_fst_eq {ws : List (Nat × Url)} (h : (ws.map Prod.fst).Nodup)
    {t u1 u2 : Nat} (h1 : (t, u1) ∈ ws) (h2 : (t, u2) ∈ ws) : u1 = u2 := by
  have := List.inj_on_of_nodup_map h h1 h2 rfl
  exact congrArg Prod.snd this

theorem fnupdate_eq {κ α : Type} [DecidableEq κ] (f : κ → α) (k : κ) (v : α) :
    (fun x => if x = k then v else f x) k = v := by simp

theorem fnupdate_ne {κ α : Type} [DecidableEq κ] (f : κ → α) {k x : κ} (v : α)
    (h : x ≠ k) : (fun y => if y = k then v else f y) x = f x := by simp [h]

theorem workers_filter_nil {ws : List (Nat × Url)} {url : Url}
    (hnw : ∀ tid, (tid, url) ∉ ws) : ws.filter (fun w => w.2 == url) = [] := by
  rw [List.filter_eq_nil_iff]
  intro a ha
  intro hcontra
  have ha2 : a.2 = url := by simpa using hcontra
  exact hnw a.1 (by rw [← Prod.mk.eta (p := a), ha2] at ha; exact ha)

theorem no_worker_of_entry_hash_some {s : ImageCacheState} (hinv : CacheInv s)
    {url : Url} {d : Download} {h : List Char}
    (hd : s.downloads url = some d) (hh : d.hash = some h) :
    ∀ tid, (tid, url) ∉ s.workers := by
  intro tid hmem
  obtain ⟨d', hd', hh'⟩ := hinv.worker_entry tid url hmem
  rw [hd] at hd'
  cases Option.some.inj hd'
  rw [hh] at hh'
  cases hh'

theorem no_worker_of_no_entry {s : ImageCacheState} (hinv : CacheInv s)
    {url : Url} (hd : s.downloads url = none) :
    ∀ tid, (tid, url) ∉ s.workers := by
  intro tid hmem
  obtain ⟨d', hd', _⟩ := hinv.worker_entry tid url hmem
  rw [hd] at hd'
  cases hd'

theorem no_timer_of_no_worker {s : ImageCacheState} (hinv : CacheInv s)
    {url : Url} (hnw : ∀ tid, (tid, url) ∉ s.workers) :
    ∀ key tid0, s.timers key ≠ some (CacheTimer.DownloadTimeout tid0 url) := by
  intro key tid0 hcontra
  obtain ⟨tid, url', d', ht, hw, _, _, _⟩ := hinv.timer_shape key _ hcontra
  cases ht
  exact hnw _ hw

theorem cacheInv_startNewDownload {s : ImageCacheState} (hinv : CacheInv s)
    {url : Url} (expected : Option (List Char)) (resp : Nat)
    (hnw : ∀ tid, (tid, url) ∉ s.workers)
    (hnt : ∀ key tid0, s.timers key ≠ some (CacheTimer.DownloadTimeout tid0 url)) :
    CacheInv (startNewDownload s url expected resp).1 := by
  simp only [startNewDownload]
  constructor <;> dsimp only
  · -- worker_count
    intro url'
    by_cases hu : url' = url
    · subst hu
      rw [show List.filter (fun w => w.2 == url') ((s.next_task_id, url') :: s.workers)
            = (s.next_task_id, url') :: List.filter (fun w => w.2 == url') s.workers by
          simp [List.filter]]
      rw [workers_filter_nil hnw]
      simp
    · rw [show List.filter (fun w => w.2 == url') ((s.next_task_id, url) :: s.workers)
            = List.filter (fun w => w.2 == url') s.workers by
          have : ((url : Url) == url') = false := by simpa using (Ne.symm hu)
          simp [List.filter, this]]
      exact hinv.worker_count url'
  · -- worker_entry
    intro tid url' hmem
    rcases List.mem_cons.mp hmem with hm | hm
    · injection hm with h1 h2
      refine ⟨{ id := s.next_download_id,
                subscribers := [{ expected_hash := expected, response := some resp }],
                timer_key := s.next_timer_key, hash := none }, ?_, rfl⟩
      rw [h2, if_pos rfl]
    · have hne : url' ≠ url := by
        intro hcontra
        subst hcontra
        exact hnw tid hm
      obtain ⟨d', hd', hh'⟩ := hinv.worker_entry tid url' hm
      exact ⟨d', by rw [if_neg hne]; exact hd', hh'⟩
  · -- timer_shape
    intro key t ht
    by_cases hk : key = s.next_timer_key
    · subst hk
      simp only [if_pos rfl] at ht
      cases Option.some.inj ht
      refine ⟨s.next_task_id, url,
        { id := s.next_download_id,
          subscribers := [{ expected_hash := expected, response := some resp }],
          timer_key := s.next_timer_key, hash := none },
        rfl, List.mem_cons_self _ _, ?_, rfl, rfl⟩
      rw [if_pos rfl]
    · simp only [if_neg hk] at ht
      obtain ⟨tid, url', d', hteq, hw, hd', hkey, hh'⟩ := hinv.timer_shape key t ht
      have hne : url' ≠ url := by
        intro hcontra
        subst hcontra
        exact hnt key tid (hteq ▸ ht)
      exact ⟨tid, url', d', hteq, List.mem_cons_of_mem _ hw,
        by rw [if_neg hne]; exact hd', hkey, hh'⟩
  · -- tid_fresh
    intro tid url' hmem
    rcases List.mem_cons.mp hmem with hmem | hmem
    · cases hmem; omega
    · have := hinv.tid_fresh tid url' hmem
      omega
  · -- key_fresh
    intro key hk
    by_cases h : key = s.next_timer_key
    · omega
    · simp only [if_neg h] at hk
      have := hinv.key_fresh key hk
      omega
  · -- entry_key_fresh
    intro url' d' hd'
    by_cases hu : url' = url
    · subst hu
      simp only [if_pos rfl] at hd'
      cases Option.some.inj hd'
      simp
    · simp only [if_neg hu] at hd'
      have := hinv.entry_key_fresh url' d' hd'
      omega
  · -- entry_key_inj
    intro u1 d1 u2 d2 h1 h2 hkey
    by_cases hu1 : u1 = url <;> by_cases hu2 : u2 = url
    · rw [hu1, hu2]
    · subst hu1
      simp only [if_pos rfl] at h1
      cases Option.some.inj h1
      simp only [if_neg hu2] at h2
      have := hinv.entry_key_fresh u2 d2 h2
      simp at hkey
      omega
    · subst hu2
      simp only [if_pos rfl] at h2
      cases Option.some.inj h2
      simp only [if_neg hu1] at h1
      have := hinv.entry_key_fresh u1 d1 h1
      simp at hkey
      omega
    · simp only [if_neg hu1] at h1
      simp only [if_neg hu2] at h2
      exact hinv.entry_key_inj u1 d1 u2 d2 h1 h2 hkey
  · -- tid_nodup
    refine List.Nodup.cons ?_ hinv.tid_nodup
    intro hcontra
    rw [List.mem_map] at hcontra
    obtain ⟨w, hw, hfst⟩ := hcontra
    have := hinv.tid_fresh w.1 w.2 (by rw [Prod.mk.eta] at *; exact hw)
    omega

theorem cacheInv_remove_entry {s : ImageCacheState} (hinv : CacheInv s)
    {url : Url} {d : Download} {h : List Char}
    (hd : s.downloads url = some d) (hh : d.hash = some h) :
    CacheInv { s with downloads := fun u => if u = url then none else s.downloads u } := by
  have hnw := no_worker_of_entry_hash_some hinv hd hh
  have hnt := no_timer_of_no_worker hinv hnw
  constructor <;> dsimp only
  · exact hinv.worker_count
  · intro tid url' hmem
    have hne : url' ≠ url := by
      intro hcontra
      subst hcontra
      exact hnw tid hmem
    obtain ⟨d', hd', hh'⟩ := hinv.worker_entry tid url' hmem
    exact ⟨d', by rw [if_neg hne]; exact hd', hh'⟩
  · intro key t ht
    obtain ⟨tid, url', d', hteq, hw, hd', hkey, hh'⟩ := hinv.timer_shape key t ht
    have hne : url' ≠ url := by
      intro hcontra
      subst hcontra
      exact hnt key tid (hteq ▸ ht)
    exact ⟨tid, url', d', hteq, hw, by rw [if_neg hne]; exact hd', hkey, hh'⟩
  · exact hinv.tid_fresh
  · exact hinv.key_fresh
  · intro url' d' hd'
    by_cases hu : url' = url
    · rw [if_pos hu] at hd'
      cases hd'
    · rw [if_neg hu] at hd'
      exact hinv.entry_key_fresh url' d' hd'
  · intro u1 d1 u2 d2 h1 h2 hkey
    by_cases hu1 : u1 = url
    · rw [if_pos hu1] at h1
      cases h1
    · by_cases hu2 : u2 = url
      · rw [if_pos hu2] at h2
        cases h2
      · rw [if_neg hu1] at h1
        rw [if_neg hu2] at h2
        exact hinv.entry_key_inj u1 d1 u2 d2 h1 h2 hkey
  · exact hinv.tid_nodup

theorem cacheInv_append_subscriber {s : ImageCacheState} (hinv : CacheInv s)
    {url : Url} {d : Download} (hd : s.downloads url = some d) (hh : d.hash = none)
    (expected : Option (List Char)) (resp : Nat) :
    CacheInv { s with downloads := fun u =>
      if u = url then
        (some { d with subscribers :=
          d.subscribers ++ [{ expected_hash := expected, response := some resp }] })
      else s.downloads u } := by
  constructor <;> dsimp only
  · exact hinv.worker_count
  · intro tid url' hmem
    by_cases hu : url' = url
    · subst hu
      exact ⟨{ d with subscribers :=
          d.subscribers ++ [{ expected_hash := expected, response := some resp }] },
        by rw [if_pos rfl], hh⟩
    · obtain ⟨d', hd', hh'⟩ := hinv.worker_entry tid url' hmem
      exact ⟨d', by rw [if_neg hu]; exact hd', hh'⟩
  · intro key t ht
    obtain ⟨tid, url', d', hteq, hw, hd', hkey, hh'⟩ := hinv.timer_shape key t ht
    by_cases hu : url' = url
    · subst hu
      rw [hd] at hd'
      cases Option.some.inj hd'
      exact ⟨tid, url', { d with subscribers :=
          d.subscribers ++ [{ expected_hash := expected, response := some resp }] },
        hteq, hw, by rw [if_pos rfl], hkey, hh'⟩
    · exact ⟨tid, url', d', hteq, hw, by rw [if_neg hu]; exact hd', hkey, hh'⟩
  · exact hinv.tid_fresh
  · exact hinv.key_fresh
  · intro url' d' hd'
    by_cases hu : url' = url
    · rw [if_pos hu] at hd'
      cases Option.some.inj hd'
      exact hinv.entry_key_fresh url d hd
    · rw [if_neg hu] at hd'
      exact hinv.entry_key_fresh url' d' hd'
  · intro u1 d1 u2 d2 h1 h2 hkey
    by_cases hu1 : u1 = url <;> by_cases hu2 : u2 = url
    · rw [hu1, hu2]
    · rw [if_pos hu1] at h1
      cases Option.some.inj h1
      rw [if_neg hu2] at h2
      exact hinv.entry_key_inj u1 d u2 d2 (hu1 ▸ hd) h2 hkey
    · rw [if_pos hu2] at h2
      cases Option.some.inj h2
      rw [if_neg hu1] at h1
      exact hinv.entry_key_inj u1 d1 u2 d h1 (hu2.symm ▸ hd) hkey
    · rw [if_neg hu1] at h1
      rw [if_neg hu2] at h2
      exact hinv.entry_key_inj u1 d1 u2 d2 h1 h2 hkey
  · exact hinv.tid_nodup

theorem cacheInv_handleGetImageHash {s : ImageCacheState} (hinv : CacheInv s)
    (url : Url) (expected : Option (List Char)) (resp : Nat) :
    CacheInv (handleGetImageHash s url expected resp).1 := by
  unfold handleGetImageHash
  split
  next d hd =>
    split
    next h hh =>
      split
      next e =>
        split
        next he =>
          exact hinv
        next he =>
          exact cacheInv_startNewDownload (cacheInv_remove_entry hinv hd hh) (some e) resp
            (no_worker_of_entry_hash_some hinv hd hh)
            (no_timer_of_no_worker hinv (no_worker_of_entry_hash_some hinv hd hh))
      next =>
        exact cacheInv_startNewDownload hinv none resp
          (no_worker_of_entry_hash_some hinv hd hh)
          (no_timer_of_no_worker hinv (no_worker_of_entry_hash_some hinv hd hh))
    next hh =>
      exact cacheInv_append_subscriber hinv hd hh expected resp
  next hd =>
    exact cacheInv_startNewDownload hinv expected resp
      (no_worker_of_no_entry hinv hd)
      (no_timer_of_no_worker hinv (no_worker_of_no_entry hinv hd))

theorem removed_no_url {ws : List (Nat × Url)} {url : Url}
    (hcount : (ws.filter (fun w => w.2 == url)).length ≤ 1)
    {x : Nat × Url} (hx : x ∈ removeWorkerForUrl ws url) : x.2 ≠ url := by
  intro hx2
  have hnil := removeWorkerForUrl_filter_nil ws url hcount
  have : x ∈ (removeWorkerForUrl ws url).filter (fun w => w.2 == url) :=
    List.mem_filter.mpr ⟨hx, by simp [hx2]⟩
  rw [hnil] at this
  cases this

theorem cacheInv_workerDone {s : ImageCacheState} (hinv : CacheInv s)
    (url : Url) (r : GetImageHashResult) :
    CacheInv (handleResult { s with workers := removeWorkerForUrl s.workers url } url r).1 := by
  have hsub := removeWorkerForUrl_sublist s.workers url
  unfold handleResult
  split
  next hd =>
    -- no entry for url: only the worker list shrank
    constructor <;> dsimp only
    · intro url'
      exact Nat.le_trans ((hsub.filter _).length_le) (hinv.worker_count url')
    · intro tid url' hmem
      exact hinv.worker_entry tid url' (hsub.subset hmem)
    · intro key t ht
      obtain ⟨tid, url', d', hteq, hw, hd', hkey, hh'⟩ := hinv.timer_shape key t ht
      have hne : url' ≠ url := by
        intro hcontra
        subst hcontra
        obtain ⟨d0, hd0, _⟩ := hinv.worker_entry tid url' hw
        rw [hd] at hd0
        cases hd0
      exact ⟨tid, url', d', hteq,
        removeWorkerForUrl_mem_of_ne _ _ _ hw hne, hd', hkey, hh'⟩
    · intro tid url' hmem
      exact hinv.tid_fresh tid url' (hsub.subset hmem)
    · exact hinv.key_fresh
    · exact hinv.entry_key_fresh
    · exact hinv.entry_key_inj
    · exact hinv.tid_nodup.sublist (hsub.map Prod.fst)
  next d hd =>
    have hd0 : s.downloads url = some d := hd
    constructor <;> dsimp only
    · intro url'
      exact Nat.le_trans ((hsub.filter _).length_le) (hinv.worker_count url')
    · intro tid url' hmem
      have hne : url' ≠ url :=
        removed_no_url (hinv.worker_count url) (x := (tid, url')) hmem
      obtain ⟨d', hd', hh'⟩ := hinv.worker_entry tid url' (hsub.subset hmem)
      exact ⟨d', by rw [if_neg hne]; exact hd', hh'⟩
    · intro key t ht
      by_cases hk : key = d.timer_key
      · rw [if_pos hk] at ht
        cases ht
      · rw [if_neg hk] at ht
        obtain ⟨tid, url', d', hteq, hw, hd', hkey, hh'⟩ := hinv.timer_shape key t ht
        have hne : url' ≠ url := by
          intro hcontra
          subst hcontra
          rw [hd0] at hd'
          cases Option.some.inj hd'
          exact hk hkey.symm
        exact ⟨tid, url', d', hteq,
          removeWorkerForUrl_mem_of_ne _ _ _ hw hne,
          by rw [if_neg hne]; exact hd', hkey, hh'⟩
    · intro tid url' hmem
      exact hinv.tid_fresh tid url' (hsub.subset hmem)
    · intro key hk
      by_cases h : key = d.timer_key
      · rw [if_pos h] at hk
        cases hk
      · rw [if_neg h] at hk
        exact hinv.key_fresh key hk
    · intro url' d' hd'
      by_cases hu : url' = url
      · rw [if_pos hu] at hd'
        cases Option.some.inj hd'
        exact hinv.entry_key_fresh url d hd0
      · rw [if_neg hu] at hd'
        exact hinv.entry_key_fresh url' d' hd'
    · intro u1 d1 u2 d2 h1 h2 hkey
      by_cases hu1 : u1 = url <;> by_cases hu2 : u2 = url
      · rw [hu1, hu2]
      · rw [if_pos hu1] at h1
        cases Option.some.inj h1
        rw [if_neg hu2] at h2
        exact hinv.entry_key_inj u1 d u2 d2 (hu1.symm ▸ hd0) h2 hkey
      · rw [if_pos hu2] at h2
        cases Option.some.inj h2
        rw [if_neg hu1] at h1
        exact hinv.entry_key_inj u1 d1 u2 d h1 (hu2.symm ▸ hd0) hkey
      · rw [if_neg hu1] at h1
        rw [if_neg hu2] at h2
        exact hinv.entry_key_inj u1 d1 u2 d2 h1 h2 hkey
    · exact hinv.tid_nodup.sublist (hsub.map Prod.fst)

theorem cacheInv_timerFire {s : ImageCacheState} (hinv : CacheInv s) (key : Nat) :
    CacheInv (stepEvent s (CacheEvent.timerFire key)).1 := by
  simp only [stepEvent]
  split
  next ht =>
    exact hinv
  next t ht =>
    obtain ⟨tid, url, d, hteq, hw, hd, hkey, hh⟩ := hinv.timer_shape key t ht
    subst hteq
    unfold handleTimer
    have hfsub : (s.workers.filter (fun w => ! (w.1 == tid))).Sublist s.workers :=
      List.filter_sublist s.workers
    constructor <;> dsimp only
    · intro url'
      exact Nat.le_trans ((hfsub.filter _).length_le) (hinv.worker_count url')
    · intro tid' url' hmem
      have hmem' := List.mem_filter.mp hmem
      have htne : tid' ≠ tid := by simpa using hmem'.2
      have hne : url' ≠ url := by
        intro hcontra
        subst hcontra
        have := count_le_one_unique (hinv.worker_count url') hmem'.1 hw rfl rfl
        injection this with h1 _
        exact htne h1
      obtain ⟨d', hd', hh'⟩ := hinv.worker_entry tid' url' hmem'.1
      exact ⟨d', by rw [if_neg hne]; exact hd', hh'⟩
    · intro key' t' ht'
      by_cases hk : key' = key
      · rw [if_pos hk] at ht'
        cases ht'
      · rw [if_neg hk] at ht'
        obtain ⟨tid', url', d', hteq', hw', hd', hkey', hh'⟩ := hinv.timer_shape key' t' ht'
        have hne : url' ≠ url := by
          intro hcontra
          subst hcontra
          rw [hd] at hd'
          cases Option.some.inj hd'
          exact hk (hkey' ▸ hkey.symm ▸ rfl)
        have htne : tid' ≠ tid := by
          intro hcontra
          subst hcontra
          exact hne (nodup_fst_eq hinv.tid_nodup hw' hw)
        refine ⟨tid', url', d', hteq', ?_, by rw [if_neg hne]; exact hd', hkey', hh'⟩
        exact List.mem_filter.mpr ⟨hw', by simpa using htne⟩
    · intro tid' url' hmem
      exact hinv.tid_fresh tid' url' (hfsub.subset hmem)
    · intro key' hk
      by_cases h : key' = key
      · rw [if_pos h] at hk
        cases hk
      · rw [if_neg h] at hk
        exact hinv.key_fresh key' hk
    · intro url' d' hd'
      by_cases hu : url' = url
      · rw [if_pos hu] at hd'
        cases hd'
      · rw [if_neg hu] at hd'
        exact hinv.entry_key_fresh url' d' hd'
    · intro u1 d1 u2 d2 h1 h2 hkey'
      by_cases hu1 : u1 = url
      · rw [if_pos hu1] at h1
        cases h1
      · by_cases hu2 : u2 = url
        · rw [if_pos hu2] at h2
          cases h2
        · rw [if_neg hu1] at h1
          rw [if_neg hu2] at h2
          exact hinv.entry_key_inj u1 d1 u2 d2 h1 h2 hkey'
    · exact hinv.tid_nodup.sublist (hfsub.map Prod.fst)

theorem cacheInv_step {s : ImageCacheState} (hinv : CacheInv s) (e : CacheEvent) :
    CacheInv (stepEvent s e).1 := by
  cases e with
  | request url expected resp => exact cacheInv_handleGetImageHash hinv url expected resp
  | workerDone url r => exact cacheInv_workerDone hinv url r
  | timerFire key => exact cacheInv_timerFire hinv key

theorem cacheInv_reachable {s : ImageCacheState} (h : CacheReachable s) : CacheInv s := by
  induction h with
  | init => exact initial_cacheInv
  | step s e _ _ ih => exact cacheInv_step ih e

/-! ### Step-level behaviour lemmas -/

/-- While a download for `url` is in flight (`hash = none`), a further
request only appends a subscriber: no worker is spawned, no timer is
inserted, no response is sent. -/
theorem handleGetImageHash_inflight {s : ImageCacheState} {url : Url} {d : Download}
    (expected : Option (List Char)) (resp : Nat)
    (hd : s.downloads url = some d) (hh : d.hash = none) :
    handleGetImageHash s url expected resp =
      ({ s with downloads := fun u =>
        if u = url then
          (some { d with subscribers :=
            d.subscribers ++ [{ expected_hash := expected, response := some resp }] })
        else s.downloads u }, []) := by
  unfold handleGetImageHash
  simp only [hd, hh]

theorem handleResult_out {s : ImageCacheState} {url : Url} {d : Download}
    (r : GetImageHashResult) (hd : s.downloads url = some d) :
    (handleResult s url r).2
      = d.subscribers.filterMap (fun sub => sub.response.map (fun rid => (rid, r))) := by
  unfold handleResult
  simp only [hd]

/-- Every response delivered by a `GetImageHashResult` message carries the
same result `r`. -/
theorem handleResult_same_result {s : ImageCacheState} {url : Url}
    (r : GetImageHashResult) :
    ∀ p ∈ (handleResult s url r).2, p.2 = r := by
  intro p hp
  unfold handleResult at hp
  split at hp
  · cases hp
  · dsimp only at hp
    obtain ⟨sub, _, hmap⟩ := List.mem_filterMap.mp hp
    cases hresp : sub.response with
    | none => rw [hresp] at hmap; cases hmap
    | some rid =>
      rw [hresp] at hmap
      cases Option.some.inj hmap
      rfl

/-- After a non-`ImageCached` result is handled: the entry survives with
`hash = none`, drained subscribers, and its timer removed. -/
theorem handleResult_failure_state {s : ImageCacheState} {url : Url} {d : Download}
    (r : GetImageHashResult) (hd : s.downloads url = some d)
    (hr : ∀ h, r ≠ GetImageHashResult.ImageCached h) :
    (handleResult s url r).1.downloads url = some { d with subscribers := [] } ∧
    (handleResult s url r).1.timers d.timer_key = none ∧
    (handleResult s url r).1.workers = s.workers := by
  unfold handleResult
  simp only [hd]
  cases r with
  | ImageCached h => exact absurd rfl (hr h)
  | DownloadNoContentLength => exact ⟨by simp, by simp, by simp⟩
  | DownloadFailed status => exact ⟨by simp, by simp, by simp⟩
  | DownloadFailedToReadChunk => exact ⟨by simp, by simp, by simp⟩
  | DownloadCancelled => exact ⟨by simp, by simp, by simp⟩
  | UnknownError => exact ⟨by simp, by simp, by simp⟩

/-! ### The defunct-entry property (no delivery ever again) -/

theorem defunct_step {s : ImageCacheState} {url : Url} {rid : Nat}
    (hinv : CacheInv s) (hdef : Defunct s url) (hfree : ridFreeOutside s url rid)
    (e : CacheEvent) (hen : enabledEvent s e = true) (havoid : eventAvoidsRid rid e) :
    Defunct (stepEvent s e).1 url ∧ ridFreeOutside (stepEvent s e).1 url rid ∧
      ∀ x, (rid, x) ∉ (stepEvent s e).2 := by
  obtain ⟨⟨d, hd, hh⟩, hnw⟩ := hdef
  cases e with
  | request url' expected resp =>
    have hravoid : resp ≠ rid := havoid
    by_cases hu : url' = url
    · subst hu
      rw [stepEvent, handleGetImageHash_inflight expected resp hd hh]
      refine ⟨⟨⟨{ d with subscribers :=
          d.subscribers ++ [{ expected_hash := expected, response := some resp }] },
          by dsimp only; rw [if_pos rfl], hh⟩, hnw⟩, ?_, ?_⟩
      · intro u2 d2 hne h2 sub hsub
        dsimp only at h2
        rw [if_neg hne] at h2
        exact hfree u2 d2 hne h2 sub hsub
      · intro x hx
        cases hx
    · -- request for a different url
      rw [stepEvent]
      unfold handleGetImageHash
      have hout : ∀ (s2 : ImageCacheState) (out : List (Nat × GetImageHashResult)),
          True := fun _ _ => trivial
      split
      next d' hd' =>
        split
        next h' hhash =>
          split
          next e0 =>
            split
            next heq =>
              -- immediate response to resp ≠ rid, state unchanged
              refine ⟨⟨⟨d, hd, hh⟩, hnw⟩, hfree, ?_⟩
              intro x hx
              rcases List.mem_singleton.mp hx with hx2
              injection hx2 with hxa hxb
              exact hravoid hxa.symm
            next hne2 =>
              -- start new download for url' on the state with url' removed
              unfold startNewDownload
              refine ⟨⟨⟨d, ?_, hh⟩, ?_⟩, ?_, ?_⟩
              · dsimp only
                rw [if_neg (Ne.symm hu), if_neg (Ne.symm hu)]
                exact hd
              · intro tid hmem
                rcases List.mem_cons.mp hmem with hm | hm
                · injection hm with _ h2
                  exact hu h2.symm
                · exact hnw tid hm
              · intro u2 d2 hneu h2 sub hsub
                dsimp only at h2
                by_cases h2u : u2 = url'
                · rw [if_pos h2u] at h2
                  cases Option.some.inj h2
                  rcases List.mem_singleton.mp hsub with rfl
                  intro hcontra
                  cases Option.some.inj hcontra
                  exact hravoid rfl
                · rw [if_neg h2u] at h2
                  rw [if_neg h2u] at h2
                  exact hfree u2 d2 hneu h2 sub hsub
              · intro x hx
                cases hx
          next =>
            -- expected none with finished hash: start new download over url'
            unfold startNewDownload
            refine ⟨⟨⟨d, ?_, hh⟩, ?_⟩, ?_, ?_⟩
            · dsimp only
              rw [if_neg (Ne.symm hu)]
              exact hd
            · intro tid hmem
              rcases List.mem_cons.mp hmem with hm | hm
              · injection hm with _ h2
                exact hu h2.symm
              · exact hnw tid hm
            · intro u2 d2 hneu h2 sub hsub
              dsimp only at h2
              by_cases h2u : u2 = url'
              · rw [if_pos h2u] at h2
                cases Option.some.inj h2
                rcases List.mem_singleton.mp hsub with rfl
                intro hcontra
                cases Option.some.inj hcontra
                exact hravoid rfl
              · rw [if_neg h2u] at h2
                exact hfree u2 d2 hneu h2 sub hsub
            · intro x hx
              cases hx
        next hhash =>
          -- in-flight entry for url': append subscriber there
          refine ⟨⟨⟨d, ?_, hh⟩, hnw⟩, ?_, ?_⟩
          · dsimp only
            rw [if_neg (Ne.symm hu)]
            exact hd
          · intro u2 d2 hneu h2 sub hsub
            dsimp only at h2
            by_cases h2u : u2 = url'
            · rw [if_pos h2u] at h2
              cases Option.some.inj h2
              rcases List.mem_append.mp hsub with hs | hs
              · exact hfree u2 d' (h2u ▸ hneu) (h2u ▸ hd') sub hs
              · rcases List.mem_singleton.mp hs with rfl
                intro hcontra
                cases Option.some.inj hcontra
                exact hravoid rfl
            · rw [if_neg h2u] at h2
              exact hfree u2 d2 hneu h2 sub hsub
          · intro x hx
            cases hx
      next hd' =>
        -- no entry for url': start new download
        unfold startNewDownload
        refine ⟨⟨⟨d, ?_, hh⟩, ?_⟩, ?_, ?_⟩
        · dsimp only
          rw [if_neg (Ne.symm hu)]
          exact hd
        · intro tid hmem
          rcases List.mem_cons.mp hmem with hm | hm
          · injection hm with _ h2
            exact hu h2.symm
          · exact hnw tid hm
        · intro u2 d2 hneu h2 sub hsub
          dsimp only at h2
          by_cases h2u : u2 = url'
          · rw [if_pos h2u] at h2
            cases Option.some.inj h2
            rcases List.mem_singleton.mp hsub with rfl
            intro hcontra
            cases Option.some.inj hcontra
            exact hravoid rfl
          · rw [if_neg h2u] at h2
            exact hfree u2 d2 hneu h2 sub hsub
        · intro x hx
          cases hx
  | workerDone url' r =>
    -- enabled: a worker for url' exists, so url' ≠ url
    have hw : ∃ w ∈ s.workers, (w.2 == url') = true := List.any_eq_true.mp hen
    obtain ⟨w, hwmem, hw2⟩ := hw
    have hwu : w.2 = url' := by simpa using hw2
    have hu : url' ≠ url := by
      intro hcontra
      subst hcontra
      exact hnw w.1 (by rw [← Prod.mk.eta (p := w), hwu] at hwmem; exact hwmem)
    rw [stepEvent]
    unfold handleResult
    split
    next hd' =>
      refine ⟨⟨⟨d, hd, hh⟩, ?_⟩, hfree, ?_⟩
      · intro tid hmem
        exact hnw tid ((removeWorkerForUrl_sublist s.workers url').subset hmem)
      · intro x hx
        cases hx
    next d' hd' =>
      have hd'0 : s.downloads url' = some d' := hd'
      refine ⟨⟨⟨d, ?_, hh⟩, ?_⟩, ?_, ?_⟩
      · dsimp only
        rw [if_neg (Ne.symm hu)]
        exact hd
      · intro tid hmem
        exact hnw tid ((removeWorkerForUrl_sublist s.workers url').subset hmem)
      · intro u2 d2 hneu h2 sub hsub
        dsimp only at h2
        by_cases h2u : u2 = url'
        · rw [if_pos h2u] at h2
          cases Option.some.inj h2
          cases hsub
        · rw [if_neg h2u] at h2
          exact hfree u2 d2 hneu h2 sub hsub
      · intro x hx
        obtain ⟨sub, hsub, hmap⟩ := List.mem_filterMap.mp hx
        cases hresp : sub.response with
        | none => rw [hresp] at hmap; cases hmap
        | some rid' =>
          rw [hresp] at hmap
          injection hmap with hpair
          have : rid' = rid := congrArg Prod.fst hpair
          subst this
          exact hfree url' d' hu hd'0 sub hsub hresp
  | timerFire key =>
    rw [stepEvent]
    split
    next ht =>
      exact ⟨⟨⟨d, hd, hh⟩, hnw⟩, hfree, fun x hx => by cases hx⟩
    next t ht =>
      obtain ⟨tid, url', d', hteq, hw, hd', hkey, hh'⟩ := hinv.timer_shape key t ht
      subst hteq
      have hu : url' ≠ url := by
        intro hcontra
        subst hcontra
        exact hnw tid hw
      unfold handleTimer
      refine ⟨⟨⟨d, ?_, hh⟩, ?_⟩, ?_, ?_⟩
      · dsimp only
        rw [if_neg (Ne.symm hu)]
        exact hd
      · intro tid' hmem
        exact hnw tid' ((List.filter_sublist s.workers).subset hmem)
      · intro u2 d2 hneu h2 sub hsub
        dsimp only at h2
        by_cases h2u : u2 = url'
        · rw [if_pos h2u] at h2
          cases h2
        · rw [if_neg h2u] at h2
          exact hfree u2 d2 hneu h2 sub hsub
      · intro x hx
        cases hx

/-- From a defunct entry's state, no rid-avoiding enabled run of the actor
ever delivers a response to `rid`. -/
theorem defunct_run {s : ImageCacheState} {url : Url} {rid : Nat}
    (hinv : CacheInv s) (hdef : Defunct s url) (hfree : ridFreeOutside s url rid) :
    ∀ events, eventsEnabled s events = true →
      (∀ e ∈ events, eventAvoidsRid rid e) →
      ∀ x, (rid, x) ∉ (runEvents s events).2 := by
  intro events
  induction events generalizing s with
  | nil =>
    intro _ _ x hx
    cases hx
  | cons e es ih =>
    intro hen havoid x hx
    have hen' : enabledEvent s e = true ∧ eventsEnabled (stepEvent s e).1 es = true := by
      have : (enabledEvent s e && eventsEnabled (stepEvent s e).1 es) = true := hen
      exact Bool.and_eq_true_iff.mp this
    have hstep := defunct_step hinv hdef hfree e hen'.1 (havoid e (List.mem_cons_self e es))
    rw [show runEvents s (e :: es)
        = ((runEvents (stepEvent s e).1 es).1,
           (stepEvent s e).2 ++ (runEvents (stepEvent s e).1 es).2) from rfl] at hx
    rcases List.mem_append.mp hx with h | h
    · exact hstep.2.2 x h
    · exact ih (cacheInv_step hinv e) hstep.1 hstep.2.1 hen'.2
        (fun e' he' => havoid e' (List.mem_cons_of_mem e he')) x h

/-- Registering a subscriber on a defunct entry: from a state whose entry
for `url` has `hash = none` and no worker, a `GetImageHash` request whose
oneshot channel is `rid` (fresh: registered nowhere else) is appended as a
subscriber and gets no response, and no enabled continuation in which no
other request carries `rid` (a oneshot sender is moved into its request and
cannot be reused) ever delivers a response to `rid`. -/
theorem defunct_register_no_delivery {s1 : ImageCacheState} {url : Url} {d1 : Download}
    (hinv1 : CacheInv s1)
    (hd1 : s1.downloads url = some d1) (hh1 : d1.hash = none)
    (hnw1 : ∀ tid, (tid, url) ∉ s1.workers)
    (rid : Nat) (expected : Option (List Char))
    (hfree1 : ridFreeOutside s1 url rid) :
    (stepEvent s1 (CacheEvent.request url expected rid)).2 = [] ∧
    ridRegistered (stepEvent s1 (CacheEvent.request url expected rid)).1 url rid ∧
    Defunct (stepEvent s1 (CacheEvent.request url expected rid)).1 url ∧
    (∀ events,
      eventsEnabled (stepEvent s1 (CacheEvent.request url expected rid)).1 events = true →
      (∀ e ∈ events, eventAvoidsRid rid e) →
      ∀ x, (rid, x) ∉ (runEvents (stepEvent s1 (CacheEvent.request url expected rid)).1 events).2) := by
  have happ : stepEvent s1 (CacheEvent.request url expected rid)
      = (appendSubscriberState s1 url d1 expected rid, []) :=
    handleGetImageHash_inflight expected rid hd1 hh1
  have hlook : (appendSubscriberState s1 url d1 expected rid).downloads url
      = some { d1 with subscribers :=
          d1.subscribers ++ [{ expected_hash := expected, response := some rid }] } := by
    unfold appendSubscriberState
    dsimp only
    rw [if_pos rfl]
  have hdef2 : Defunct (appendSubscriberState s1 url d1 expected rid) url :=
    ⟨⟨_, hlook, hh1⟩, fun tid hmem => hnw1 tid hmem⟩
  have hfree2 : ridFreeOutside (appendSubscriberState s1 url d1 expected rid) url rid := by
    intro u2 d2 hneu h2 sub hsub
    unfold appendSubscriberState at h2
    dsimp only at h2
    rw [if_neg hneu] at h2
    exact hfree1 u2 d2 hneu h2 sub hsub
  have hreg : ridRegistered (appendSubscriberState s1 url d1 expected rid) url rid :=
    ⟨_, hlook, { expected_hash := expected, response := some rid }, by simp, rfl⟩
  rw [happ]
  refine ⟨rfl, hreg, hdef2, ?_⟩
  intro events hen havoid
  have hinv2 := cacheInv_step hinv1 (CacheEvent.request url expected rid)
  rw [happ] at hinv2
  exact defunct_run hinv2 hdef2 hfree2 events hen havoid

/-! ### Claim theorems -/

/-- Claim C2: in every reachable actor state at most one download worker per
URL exists; while a download for a URL is in flight (entry with
`hash = none`) a further `GetImageHash` request only appends a subscriber
(worker list unchanged, no response emitted), and when the download
finishes every drained subscriber receives the same result. -/
theorem single_flight_per_url (s : ImageCacheState) (hreach : CacheReachable s) :
    (∀ url, (s.workers.filter (fun w => w.2 == url)).length ≤ 1) ∧
    (∀ url d expected resp, s.downloads url = some d → d.hash = none →
      (handleGetImageHash s url expected resp).1.workers = s.workers ∧
      (handleGetImageHash s url expected resp).1.downloads url =
        some { d with subscribers :=
          d.subscribers ++ [{ expected_hash := expected, response := some resp }] } ∧
      (handleGetImageHash s url expected resp).2 = []) ∧
    (∀ url r, ∀ p ∈ (handleResult s url r).2, p.2 = r) := by
  refine ⟨(cacheInv_reachable hreach).worker_count, ?_, ?_⟩
  · intro url d expected resp hd hh
    rw [handleGetImageHash_inflight expected resp hd hh]
    refine ⟨rfl, ?_, rfl⟩
    dsimp only
    rw [if_pos rfl]
  · intro url r
    exact handleResult_same_result r

theorem single_flight_per_url_witness :
    ((stepEvent initialCacheState (CacheEvent.request 0 none 7)).1.workers.filter
      (fun w => w.2 == 0)).length ≤ 1 :=
  (single_flight_per_url _
    (CacheReachable.step initialCacheState (CacheEvent.request 0 none 7)
      CacheReachable.init rfl)).1 0

/-- Claim C10: after a failed (non-`ImageCached`) download result is
handled, the entry for the URL survives with `hash = none`, drained
subscribers, and its timer removed; the URL's worker is gone; every later
request for that URL only appends a subscriber (no worker spawned, no
response emitted); and the subscriber so appended never receives a
response: a later `GetImageHash` request whose fresh oneshot channel is
`rid` is registered on the defunct entry with no response emitted, and no
enabled continuation in which no other request carries `rid` (a oneshot
sender is moved into its request and cannot be reused) ever delivers
anything to `rid`. -/
theorem defunct_entry_after_failure
    (s : ImageCacheState) (url : Url) (d : Download) (r : GetImageHashResult)
    (hinv : CacheInv s)
    (hd : s.downloads url = some d) (hh : d.hash = none)
    (hr : ∀ h, r ≠ GetImageHashResult.ImageCached h) :
    (stepEvent s (CacheEvent.workerDone url r)).1.downloads url
      = some { d with subscribers := [] } ∧
    (stepEvent s (CacheEvent.workerDone url r)).1.timers d.timer_key = none ∧
    Defunct (stepEvent s (CacheEvent.workerDone url r)).1 url ∧
    (∀ s2 d2 expected resp,
      ImageCacheState.downloads s2 url = some d2 → d2.hash = none →
      (handleGetImageHash s2 url expected resp).1.workers = s2.workers ∧
      (handleGetImageHash s2 url expected resp).2 = []) ∧
    (∀ rid expected,
      ridFreeOutside (stepEvent s (CacheEvent.workerDone url r)).1 url rid →
      (stepEvent (stepEvent s (CacheEvent.workerDone url r)).1
          (CacheEvent.request url expected rid)).2 = [] ∧
      ridRegistered (stepEvent (stepEvent s (CacheEvent.workerDone url r)).1
          (CacheEvent.request url expected rid)).1 url rid ∧
      Defunct (stepEvent (stepEvent s (CacheEvent.workerDone url r)).1
          (CacheEvent.request url expected rid)).1 url ∧
      (∀ events,
        eventsEnabled (stepEvent (stepEvent s (CacheEvent.workerDone url r)).1
            (CacheEvent.request url expected rid)).1 events = true →
        (∀ e ∈ events, eventAvoidsRid rid e) →
        ∀ x, (rid, x) ∉ (runEvents (stepEvent (stepEvent s (CacheEvent.workerDone url r)).1
            (CacheEvent.request url expected rid)).1 events).2)) := by
  have hfail := handleResult_failure_state (s :=
    { s with workers := removeWorkerForUrl s.workers url }) r hd hr
  have hws : (stepEvent s (CacheEvent.workerDone url r)).1.workers
      = removeWorkerForUrl s.workers url := hfail.2.2
  have hnoworker : ∀ tid, (tid, url) ∉ (stepEvent s (CacheEvent.workerDone url r)).1.workers := by
    intro tid hmem
    rw [hws] at hmem
    exact removed_no_url (hinv.worker_count url) hmem rfl
  have hdef : Defunct (stepEvent s (CacheEvent.workerDone url r)).1 url := by
    refine ⟨⟨{ d with subscribers := [] }, hfail.1, hh⟩, hnoworker⟩
  refine ⟨hfail.1, hfail.2.1, hdef, ?_, ?_⟩
  · intro s2 d2 expected resp hd2 hh2
    rw [handleGetImageHash_inflight expected resp hd2 hh2]
    exact ⟨rfl, rfl⟩
  · intro rid expected hfree
    exact defunct_register_no_delivery
      (cacheInv_step hinv (CacheEvent.workerDone url r))
      hfail.1 hh hnoworker rid expected hfree

theorem defunct_entry_after_failure_witness :
    (stepEvent (stepEvent initialCacheState (CacheEvent.request 0 none 7)).1
        (CacheEvent.workerDone 0 GetImageHashResult.UnknownError)).1.downloads 0
      = some { id := 0, subscribers := [], timer_key := 0, hash := none } :=
  (defunct_entry_after_failure
    (stepEvent initialCacheState (CacheEvent.request 0 none 7)).1 0
    { id := 0, subscribers := [{ expected_hash := none, response := some 7 }],
      timer_key := 0, hash := none }
    GetImageHashResult.UnknownError
    (cacheInv_step initial_cacheInv (CacheEvent.request 0 none 7))
    rfl rfl
    (fun _ hc => GetImageHashResult.noConfusion hc)).1

/-- Claim C1 counterexample: starting from the initial actor state, a
request for url 0 with `expected_hash = "deadbeef"` whose worker computes
hash `"00"` is answered with `ImageCached "00"` on the caller's oneshot
channel (rid 7) even though `"00" ≠ "deadbeef"`: the delivered hash is not
the expected one. -/
theorem expected_hash_not_filtered :
    (stepEvent (stepEvent initialCacheState
        (CacheEvent.request 0 (some "deadbeef".data) 7)).1
      (CacheEvent.workerDone 0 (GetImageHashResult.ImageCached "00".data))).2
      = [(7, GetImageHashResult.ImageCached "00".data)] ∧
    "00".data ≠ "deadbeef".data := by
  exact ⟨rfl, by decide⟩

/-- Claim C1 (amended): when `get_image_hash` returns `ImageCached hash`,
the cache holds a file at `hash` whose digest is `hash` (the fast path
under the store invariant, and the worker's publish by construction); the
returned hash equals the supplied `expected_hash` on the fast path; but
results delivered through the actor are handed to every subscriber
unfiltered, so a subscriber's `expected_hash` may differ from the hash it
receives. -/
theorem image_cached_integrity (sha : List Nat → List Char) :
    (∀ (cacheFiles : List Char → Option (List Nat)) (e : List Char),
      CacheFilesOk sha cacheFiles → (cacheFiles e).isSome →
        clientFastPath cacheFiles (some e) = some (GetImageHashResult.ImageCached e) ∧
        ∃ body, cacheFiles e = some body ∧ sha body = e) ∧
    (∀ fs resp h fs2,
      workerGetImageHash sha fs resp = (GetImageHashResult.ImageCached h, fs2) →
      (∃ body, fs2 h = some body ∧ sha body = h) ∧
      (CacheFilesOk sha fs → CacheFilesOk sha fs2)) ∧
    (∀ s url r, ∀ p ∈ (handleResult s url r).2, p.2 = r) := by
  refine ⟨?_, ?_, ?_⟩
  · intro cacheFiles e hok hsome
    obtain ⟨body, hbody⟩ := Option.isSome_iff_exists.mp hsome
    refine ⟨by simp [clientFastPath, hbody], body, hbody, hok e body hbody⟩
  · intro fs resp h fs2 heq
    unfold workerGetImageHash at heq
    split at heq
    · cases heq
    · split at heq
      · split at heq
        · cases heq
        next body hbody =>
          injection heq with h1 h2
          injection h1 with h3
          subst h3
          subst h2
          constructor
          · exact ⟨body, by dsimp only; rw [if_pos rfl], rfl⟩
          · intro hok k b hkb
            dsimp only at hkb
            by_cases hk : k = sha body
            · rw [if_pos hk] at hkb
              cases Option.some.inj hkb
              exact hk.symm
            · rw [if_neg hk] at hkb
              exact hok k b hkb
      · cases heq
  · intro s url r
    exact handleResult_same_result r

theorem image_cached_integrity_witness :
    clientFastPath (fun k => if k = "00".data then some [1] else none)
      (some "00".data) = some (GetImageHashResult.ImageCached "00".data) :=
  ((image_cached_integrity (fun _ => "00".data)).1
    (fun k => if k = "00".data then some [1] else none) "00".data
    (by
      intro h body hb
      dsimp only at hb
      by_cases hc : h = "00".data
      · rw [hc]
      · rw [if_neg hc] at hb
        cases hb)
    (by decide)).1

/-- Claim C3 (code bug): when the HTTP response carries no Content-Length,
the worker returns `DownloadFailed(status)` (src/image_cache.rs 320-322) and
never the `DownloadNoContentLength` variant the spec prescribes; the
variant exists (line 59) and `machine.rs` line 231 matches on it, but it is
never constructed. -/
theorem worker_missing_content_length (sha : List Nat → List Char)
    (fs : List Char → Option (List Nat)) (resp : HttpResponse)
    (hcl : resp.contentLength = none) :
    (workerGetImageHash sha fs resp).1 = GetImageHashResult.DownloadFailed resp.status ∧
    (workerGetImageHash sha fs resp).1 ≠ GetImageHashResult.DownloadNoContentLength := by
  unfold workerGetImageHash
  rw [hcl]
  exact ⟨rfl, fun hc => GetImageHashResult.noConfusion hc⟩

theorem worker_missing_content_length_witness :
    (workerGetImageHash (fun _ => []) (fun _ => none)
      { status := 200, contentLength := none, chunks := [] }).1
      = GetImageHashResult.DownloadFailed 200 :=
  (worker_missing_content_length (fun _ => []) (fun _ => none)
    { status := 200, contentLength := none, chunks := [] } rfl).1

/-- Claim C4 (code bug): on cancellation the shutdown sequence does set the
flag, close the receiver, insert the `ShutdownTimeout` timer at `now + 5`
and cancel the child group — but it then awaits the group inside
`shutdown()`, where the timer queue is not polled, so with a child that
never observes cancellation `update()` never returns: the 5-second bound
is not enforced (the `abort_all` arm of the select is unreachable while
`shutdown()` is blocked in `tasks.wait()`). -/
theorem shutdown_blocks_on_unresponsive_child :
    (updateOnCancel 0 [none] initialActor).1.shutdown = true ∧
    (updateOnCancel 0 [none] initialActor).1.receiverClosed = true ∧
    (updateOnCancel 0 [none] initialActor).1.shutdownTimerDeadline = some 5 ∧
    (updateOnCancel 0 [none] initialActor).1.groupCancelled = true ∧
    (updateOnCancel 0 [none] initialActor).2 = none := by
  exact ⟨rfl, rfl, rfl, rfl, rfl⟩

/-- Claim C5: for every 16-byte value, `Id::from_str` applied to the base-62
encoding recovers the same value (as its 16 big-endian bytes), and the
encoding is injective on 16-byte values. -/
theorem id_roundtrip_injective :
    (∀ bs : List Nat, bs.length = 16 → (∀ x ∈ bs, x < 256) →
      idFromStr (b62encode bs) = some (ofBytesBE bs) ∧
      beBytes 16 (ofBytesBE bs) = bs) ∧
    (∀ bs1 bs2 : List Nat, bs1.length = 16 → bs2.length = 16 →
      (∀ x ∈ bs1, x < 256) → (∀ x ∈ bs2, x < 256) →
      b62encode bs1 = b62encode bs2 → bs1 = bs2) := by
  constructor
  · intro bs hlen hlt
    constructor
    · unfold idFromStr
      rw [b62decode_encode bs hlt]
      simp [hlen]
    · exact beBytes_ofBytesBE 16 bs hlen hlt
  · intro bs1 bs2 hl1 hl2 hx1 hx2 henc
    have e1 := b62decode_encode bs1 hx1
    have e2 := b62decode_encode bs2 hx2
    rw [henc, e2] at e1
    exact (Option.some.inj e1).symm

theorem id_roundtrip_injective_witness :
    idFromStr (b62encode (List.replicate 16 0))
        = some (ofBytesBE (List.replicate 16 0)) ∧
    beBytes 16 (ofBytesBE (List.replicate 16 0)) = List.replicate 16 0 :=
  id_roundtrip_injective.1 (List.replicate 16 0) (by decide) (by decide)

/-- Claim C6: a successful `Instance::read` increments the stored
`boot_seq` by exactly one (below the `u64` wrap), rewrites `state.json`
with the incremented value, and returns an instance carrying that value;
`Instance::new` initialises `boot_seq` to 0. -/
theorem boot_seq_increment
    (fs : Nat → Option InstanceState) (machineOk networkOk : Nat → Bool)
    (id : Nat) (st : InstanceState)
    (hst : fs id = some st) (hov : st.boot_seq + 1 < 2 ^ 64)
    (hm : machineOk st.machine_id = true) (hn : networkOk st.network_id = true) :
    (instanceRead fs machineOk networkOk id).2 = some (st.boot_seq + 1) ∧
    (instanceRead fs machineOk networkOk id).1 id
      = some { st with boot_seq := st.boot_seq + 1 } ∧
    (∀ fs2 id2 mid nid, fs2 id2 = none →
      instanceNew fs2 id2 mid nid
        = some (fun i => if i = id2 then
            some { id := id2, boot_seq := 0, machine_id := mid, network_id := nid }
          else fs2 i, 0)) := by
  have hmod : (st.boot_seq + 1) % 2 ^ 64 = st.boot_seq + 1 := Nat.mod_eq_of_lt hov
  refine ⟨?_, ?_, ?_⟩
  · unfold instanceRead
    split
    next heq =>
      rw [hst] at heq
      cases heq
    next st2 heq =>
      rw [hst] at heq
      cases Option.some.inj heq
      simp [hm, hn, hmod]
      exact hov
  · unfold instanceRead
    split
    next heq =>
      rw [hst] at heq
      cases heq
    next st2 heq =>
      rw [hst] at heq
      cases Option.some.inj heq
      simp [hm, hn, hmod]
      exact hov
  · intro fs2 id2 mid nid h2
    unfold instanceNew
    rw [h2]

theorem boot_seq_increment_witness :
    (instanceRead
      (fun i => if i = 0 then
        some { id := 0, boot_seq := 3, machine_id := 1, network_id := 2 }
      else none)
      (fun _ => true) (fun _ => true) 0).2 = some 4 :=
  (boot_seq_increment _ (fun _ => true) (fun _ => true) 0
    { id := 0, boot_seq := 3, machine_id := 1, network_id := 2 }
    rfl (by decide) rfl rfl).1

/-- Claim C7 counterexample: `ShareDir::new` base-62 encodes 4 random
bytes; with the draw 0x00000000 the tag is `"0000"` — 4 characters, not
8 — and a second ShareDir over the same host path drawing the same bytes
obtains the identical tag (there is no uniqueness retry of the tag). -/
theorem share_dir_tag_counterexample :
    (shareDirNew 0 1024 "/data".data false [0, 0, 0, 0]).map ShareDir.tag
      = some "0000".data ∧
    ("0000".data).length = 4 ∧
    (shareDirNew 1 1024 "/data".data false [0, 0, 0, 0]).map ShareDir.tag
      = (shareDirNew 2 1024 "/data".data false [0, 0, 0, 0]).map ShareDir.tag := by
  exact ⟨rfl, rfl, rfl⟩

/-- Claim C7 (amended): a ShareDir's tag is the base-62 encoding of 4
random bytes (at least 4 characters); construction returns immediately
when the host path does not exist and loops forever (modelled `none`) when
it does — the retry condition is the host path's existence, not tag
uniqueness; the socket path is `/tmp/vmm-virtiofs-<id>-<tag>.sock`; two
ShareDirs obtain distinct tags exactly when their random draws differ, and
distinct tags give distinct socket paths. -/
theorem share_dir_tag_socket
    (instance_id mem : Nat) (path : List Char) (draw draw2 : List Nat)
    (hlen : draw.length = 4) (hlt : ∀ x ∈ draw, x < 256)
    (_hlen2 : draw2.length = 4) (hlt2 : ∀ x ∈ draw2, x < 256) :
    shareDirNew instance_id mem path false draw
      = some { instance_id := instance_id, instance_memory := mem,
               tag := b62encode draw, path := path } ∧
    shareDirNew instance_id mem path true draw = none ∧
    getSocketPath { instance_id := instance_id, instance_memory := mem,
                    tag := b62encode draw, path := path }
      = "/tmp/vmm-virtiofs-".data ++ idToString instance_id ++ "-".data
        ++ b62encode draw ++ ".sock".data ∧
    4 ≤ (b62encode draw).length ∧
    (draw ≠ draw2 → b62encode draw ≠ b62encode draw2) ∧
    (b62encode draw ≠ b62encode draw2 →
      getSocketPath { instance_id := instance_id, instance_memory := mem,
                      tag := b62encode draw, path := path }
        ≠ getSocketPath { instance_id := instance_id, instance_memory := mem,
                          tag := b62encode draw2, path := path }) := by
  refine ⟨rfl, rfl, rfl, ?_, ?_, ?_⟩
  · have h := b62digitsOfBytes_length_ge draw hlt
    rw [hlen] at h
    unfold b62encode
    rw [List.length_map]
    exact h
  · intro hne henc
    have e1 := b62decode_encode draw hlt
    have e2 := b62decode_encode draw2 hlt2
    rw [henc, e2] at e1
    exact hne (Option.some.inj e1).symm
  · intro hne hsock
    apply hne
    unfold getSocketPath at hsock
    dsimp only at hsock
    have h1 := List.append_cancel_right hsock
    exact List.append_cancel_left h1

theorem share_dir_tag_socket_witness :
    shareDirNew 0 1024 "/data".data false [0, 0, 0, 1]
      = some { instance_id := 0, instance_memory := 1024,
               tag := b62encode [0, 0, 0, 1], path := "/data".data } :=
  (share_dir_tag_socket 0 1024 "/data".data [0, 0, 0, 1] [0, 0, 0, 2]
    rfl (by decide) rfl (by decide)).1

/-- Claim C8 (code bug): each ShareDir's `get_qemu_args` emits the
`memory-backend-file` object and the `-numa` association, and
`Instance::get_qemu_args` concatenates them per share; with two shares the
pair appears twice in the final argument list, not once per instance. -/
theorem memory_backend_emitted_per_share :
    ((instanceQemuArgs
        { id := 0, boot_seq := 0, machine_cpus := 1, machine_memory := 1024,
          network_id := 0,
          share_dirs := [
            { instance_id := 0, instance_memory := 1024, tag := "0000".data,
              path := "/a".data },
            { instance_id := 0, instance_memory := 1024, tag := "0001".data,
              path := "/b".data }] }
        "/iso".data "/img".data).map
      (fun args => args.count "-object".data)) = some 2 ∧
    ((instanceQemuArgs
        { id := 0, boot_seq := 0, machine_cpus := 1, machine_memory := 1024,
          network_id := 0,
          share_dirs := [
            { instance_id := 0, instance_memory := 1024, tag := "0000".data,
              path := "/a".data },
            { instance_id := 0, instance_memory := 1024, tag := "0001".data,
              path := "/b".data }] }
        "/iso".data "/img".data).map
      (fun args => args.count "-numa".data)) = some 2 ∧
    (2 : Nat) ≠ 1 := by
  exact ⟨by decide, by decide, by decide⟩

/-- Claim C9: `get_bridge_name` and `get_tap_name` return `vmmbr-`/`vmmtap-`
followed by the last 4 characters of the id's base-62 encoding, for every
128-bit id: the encoding of 16 bytes always has at least 16 characters
(leading zero bytes encode as leading zero digits), so the
`&id[id.len() - 4..]` slice never panics — no id has an encoding shorter
than 4 characters. -/
theorem bridge_tap_names_total (networkId instanceId : Nat) :
    getBridgeName networkId
      = some ("vmmbr-".data
        ++ (idToString networkId).drop ((idToString networkId).length - 4)) ∧
    getTapName instanceId
      = some ("vmmtap-".data
        ++ (idToString instanceId).drop ((idToString instanceId).length - 4)) := by
  have h1 := idToString_length_ge networkId
  have h2 := idToString_length_ge instanceId
  constructor
  · unfold getBridgeName
    rw [if_pos (by omega)]
  · unfold getTapName
    rw [if_pos (by omega)]

end Vmm
